import Mathlib

/-!
Verification of the bidirected sequence-graph transformation engine of the
vg repository against its specification.  The repository ships only the unit
tests (`src/unittest/vg.cpp`, `src/unittest/genome_state.cpp`); the bodies of
the `VG` methods under test are not part of the source tree, so every
operation below is modelled from the specification's description of it, and
checked on the concrete inputs that the unit tests exercise.
-/

namespace VGSpec

/-- A DNA-like sequence, as a list of characters. -/
abbrev Seq := List Char

/-- Modelled from the spec: a Node has a unique integer id and an immutable
forward-strand sequence (spec section 3). -/
structure Node where
  id : Nat
  seq : Seq
deriving DecidableEq, Repr

/-- Modelled from the spec: an Edge connects two NodeSides, with fields
(from id, to id, from-uses-start-side?, to-uses-end-side?, overlap length)
(spec section 3). -/
structure Edge where
  efrom : Nat
  eto : Nat
  fromStart : Bool
  toEnd : Bool
  overlap : Nat
deriving DecidableEq, Repr

/-- Modelled from the spec: a graph is an arena of nodes and edges indexed by
stable integer ids (spec sections 3 and 9). -/
structure Graph where
  nodes : List Node
  edges : List Edge
deriving DecidableEq, Repr

/-- A NodeSide: (node id, end-flag), the end-flag being true for the
"end"/3-prime side (spec section 3). -/
structure NodeSide where
  nid : Nat
  isEnd : Bool
deriving DecidableEq, Repr

/-- The NodeSide at which an edge attaches on its "from" endpoint:
the start side when from-start is set, else the end side. -/
def Edge.fromSide (e : Edge) : NodeSide := ⟨e.efrom, !e.fromStart⟩

/-- The NodeSide at which an edge attaches on its "to" endpoint:
the end side when to-end is set, else the start side. -/
def Edge.toSide (e : Edge) : NodeSide := ⟨e.eto, e.toEnd⟩

/-- Whether an edge is incident on a given NodeSide (at either endpoint). -/
def Edge.onSide (e : Edge) (s : NodeSide) : Bool :=
  e.fromSide = s || e.toSide = s

/-- Watson-Crick complement of one symbol; symbols outside the paired
alphabet are fixed (spec section 3: "alphabet of symbols ... plus
complement-defined pairing"). -/
def complement (c : Char) : Char :=
  if c = 'A' then 'T'
  else if c = 'T' then 'A'
  else if c = 'C' then 'G'
  else if c = 'G' then 'C'
  else c

/-- Sequence reverse-complementation, consumed from collaborators
(spec section 6): the complement of the sequence, reversed. -/
def reverse_complement (s : Seq) : Seq :=
  (s.map complement).reverse

theorem complement_complement (c : Char) : complement (complement c) = c := by
  unfold complement
  by_cases hA : c = 'A'
  · simp [hA]
  · by_cases hT : c = 'T'
    · simp [hT]
    · by_cases hC : c = 'C'
      · simp [hC]
      · by_cases hG : c = 'G'
        · simp [hG]
        · simp [hA, hT, hC, hG]

theorem reverse_complement_involutive (s : Seq) :
    reverse_complement (reverse_complement s) = s := by
  unfold reverse_complement
  rw [List.map_reverse, List.reverse_reverse, List.map_map]
  have : complement ∘ complement = id := by
    funext c; exact complement_complement c
  rw [this, List.map_id]

/-- Length of a sequence is preserved by reverse complementation. -/
theorem length_reverse_complement (s : Seq) :
    (reverse_complement s).length = s.length := by
  unfold reverse_complement
  rw [List.length_reverse, List.length_map]

/-! ## Reverse-Complementer (spec section 4.2)

Modelled from the spec: `reverse_complement_graph` creates, for every node,
a node whose sequence is the reverse complement (keeping the stable id), and
for every edge an edge whose incident sides are swapped between the two sides
of the corresponding node, so that the new graph's edges leaving the start
side of a node equal the old graph's edges leaving the end side of that node
and vice versa.  Every translation entry marks the node as the
reverse-complement counterpart of its original. -/

/-- The reverse-complement counterpart of one node. -/
def rcNode (n : Node) : Node := ⟨n.id, reverse_complement n.seq⟩

/-- The counterpart of one edge: negating both orientation flags moves each
endpoint's attachment to the opposite side of the same node. -/
def rcEdge (e : Edge) : Edge := ⟨e.efrom, e.eto, !e.fromStart, !e.toEnd, e.overlap⟩

/-- Modelled from the spec: whole-graph reverse complement (spec 4.2). -/
def reverse_complement_graph (g : Graph) : Graph :=
  ⟨g.nodes.map rcNode, g.edges.map rcEdge⟩

/-- Modelled from the spec: the translation map produced alongside the
reverse-complemented graph, one entry per derived node, each marking the node
as the flipped counterpart of its original. -/
def reverse_complement_translation (g : Graph) : List (Nat × (Nat × Bool)) :=
  g.nodes.map (fun n => (n.id, (n.id, true)))

/-- The sides of the opposite extremities: flips an edge's incidence test. -/
def NodeSide.flip (s : NodeSide) : NodeSide := ⟨s.nid, !s.isEnd⟩

/-- The edges of a graph incident on a given side. -/
def Graph.edgesOn (g : Graph) (s : NodeSide) : List Edge :=
  g.edges.filter (fun e => e.onSide s)

theorem rcEdge_onSide (e : Edge) (s : NodeSide) :
    (rcEdge e).onSide s = e.onSide s.flip := by
  obtain ⟨f, t, ff, te, ov⟩ := e
  cases s with
  | mk i b =>
    simp only [Edge.onSide, rcEdge, Edge.fromSide, Edge.toSide, NodeSide.flip]
    cases b <;> cases ff <;> cases te <;> simp [NodeSide.mk.injEq]

/-- Edge incidence on a side of the reverse-complemented graph is the image
of edge incidence on the opposite side of the original graph. -/
theorem edgesOn_reverse_complement (g : Graph) (s : NodeSide) :
    (reverse_complement_graph g).edgesOn s = (g.edgesOn s.flip).map rcEdge := by
  unfold Graph.edgesOn reverse_complement_graph
  simp only [List.filter_map]
  congr 1
  apply List.filter_congr
  intro e _
  simp [Function.comp, rcEdge_onSide]

theorem rcNode_rcNode (n : Node) : rcNode (rcNode n) = n := by
  unfold rcNode
  cases n with
  | mk i s => simp [reverse_complement_involutive]

theorem rcEdge_rcEdge (e : Edge) : rcEdge (rcEdge e) = e := by
  unfold rcEdge
  cases e with
  | mk f t ff te ov => simp

/-- C6: for every graph, `reverse_complement_graph` preserves the node and
edge counts exactly, gives every node the reverse complement of its
original's sequence (under the same stable id), produces a translation with
exactly one entry per result node marking it flipped, and swaps the incident
edge sets between the two sides of every node. -/
theorem reverse_complement_graph_spec (g : Graph) :
    (reverse_complement_graph g).nodes.length = g.nodes.length ∧
    (reverse_complement_graph g).edges.length = g.edges.length ∧
    List.Forall₂ (fun m n => m.id = n.id ∧ m.seq = reverse_complement n.seq)
      (reverse_complement_graph g).nodes g.nodes ∧
    (reverse_complement_translation g).map Prod.fst
      = (reverse_complement_graph g).nodes.map Node.id ∧
    (∀ p ∈ reverse_complement_translation g, p.2 = (p.1, true)) ∧
    (∀ s : NodeSide,
      (reverse_complement_graph g).edgesOn s = (g.edgesOn s.flip).map rcEdge) := by
  refine ⟨?_, ?_, ?_, ?_, ?_, ?_⟩
  · simp [reverse_complement_graph]
  · simp [reverse_complement_graph]
  · unfold reverse_complement_graph
    simp only
    induction g.nodes with
    | nil => exact List.Forall₂.nil
    | cons n ns ih => exact List.Forall₂.cons ⟨rfl, rfl⟩ ih
  · unfold reverse_complement_translation reverse_complement_graph
    simp [rcNode]
  · intro p hp
    unfold reverse_complement_translation at hp
    obtain ⟨n, _, hn⟩ := List.mem_map.mp hp
    simp [← hn]
  · exact edgesOn_reverse_complement g

/-- C7: applying `reverse_complement_graph` twice is the identity on the
graph, hence the round trip produces a graph isomorphic to the input (same
node count, each sequence restored by double complementation, identical edge
incidence structure). -/
theorem reverse_complement_graph_involutive (g : Graph) :
    reverse_complement_graph (reverse_complement_graph g) = g := by
  unfold reverse_complement_graph
  cases g with
  | mk ns es =>
    simp only [Graph.mk.injEq, List.map_map]
    constructor
    · have : rcNode ∘ rcNode = id := by funext n; exact rcNode_rcNode n
      rw [this, List.map_id]
    · have : rcEdge ∘ rcEdge = id := by funext e; exact rcEdge_rcEdge e
      rw [this, List.map_id]

/-! ## Acyclicity Checker (spec section 4.1)

Modelled from the spec: build the orientation-expanded state graph where each
node contributes two states (forward, reverse); each Edge induces a directed
arc between the states of its endpoints determined by its orientation flags,
and by symmetry the reverse arc between the opposite states; the graph is
acyclic iff this oriented-state graph has no cycle. -/

/-- An oriented state: (node id, reverse-strand flag). -/
abbrev OState := Nat × Bool

/-- The arc successors of a state in the orientation-expanded state graph:
each edge contributes the arc (from id, from-start) to (to id, to-end) and,
by symmetry, the reverse arc between the opposite states. -/
def succs (g : Graph) (s : OState) : List OState :=
  g.edges.flatMap (fun e =>
    (if (e.efrom, e.fromStart) = s then [(e.eto, e.toEnd)] else []) ++
    (if (e.eto, !e.toEnd) = s then [(e.efrom, !e.fromStart)] else []))

/-- Both states of every node of the graph. -/
def allStates (g : Graph) : List OState :=
  g.nodes.map (fun n => (n.id, false)) ++ g.nodes.map (fun n => (n.id, true))

/-- States reachable from `s` by an arc path of between 1 and `k+1` steps. -/
def reachN (g : Graph) : Nat → OState → List OState
  | 0, s => succs g s
  | k+1, s =>
    let r := reachN g k s
    (r ++ r.flatMap (succs g)).dedup

/-- Modelled from the spec: the graph is acyclic iff the oriented-state graph
has no cycle; a cycle revisits some state, and a minimal cycle takes at most
as many steps as there are states, so bounded reachability decides it. -/
def is_acyclic (g : Graph) : Bool :=
  !((allStates g).any (fun s => decide (s ∈ reachN g (2 * g.nodes.length) s)))

theorem reachN_sound (g : Graph) :
    ∀ k s t, t ∈ reachN g k s →
      Relation.TransGen (fun a b => b ∈ succs g a) s t := by
  intro k
  induction k with
  | zero => intro s t ht; exact Relation.TransGen.single ht
  | succ k ih =>
    intro s t ht
    simp only [reachN, List.mem_dedup, List.mem_append, List.mem_flatMap] at ht
    rcases ht with h | ⟨u, hu, hsu⟩
    · exact ih s t h
    · exact Relation.TransGen.tail (ih s u hu) hsu

theorem succs_mem_reachN (g : Graph) (k : Nat) (s t : OState)
    (h : t ∈ succs g s) : t ∈ reachN g k s := by
  induction k with
  | zero => exact h
  | succ k ih =>
    simp only [reachN, List.mem_dedup, List.mem_append]
    exact Or.inl ih

theorem reachN_extend (g : Graph) (k : Nat) (s t u : OState)
    (ht : t ∈ reachN g k s) (hu : u ∈ succs g t) : u ∈ reachN g (k+1) s := by
  simp only [reachN, List.mem_dedup, List.mem_append, List.mem_flatMap]
  exact Or.inr ⟨t, ht, hu⟩

theorem reachN_mono (g : Graph) (k k' : Nat) (hk : k ≤ k') (s t : OState)
    (h : t ∈ reachN g k s) : t ∈ reachN g k' s := by
  induction k' with
  | zero =>
    have : k = 0 := Nat.le_zero.mp hk
    exact this ▸ h
  | succ m ih =>
    rcases Nat.lt_or_ge k (m+1) with hlt | hge
    · have : t ∈ reachN g m s := ih (by omega)
      simp only [reachN, List.mem_dedup, List.mem_append]
      exact Or.inl this
    · have : k = m + 1 := by omega
      exact this ▸ h

/-- The single-forward-chain graph on nodes 0 .. n-1 with a plain edge from
each node to the next, as in the DAG sections of the is_acyclic tests. -/
def chainGraph (n : Nat) : Graph :=
  ⟨(List.range n).map (fun i => ⟨i, ['A']⟩),
   (List.range (n-1)).map (fun k => ⟨k, k+1, false, false, 0⟩)⟩

/-- Adding one edge to a graph. -/
def addEdge (g : Graph) (e : Edge) : Graph := ⟨g.nodes, g.edges ++ [e]⟩

/-- Rank of a state of the chain: strictly increased by every chain arc. -/
def chainRank (s : OState) : Int :=
  if s.2 then -(s.1 : Int) else (s.1 : Int)

theorem chain_succs_rank (n : Nat) (s t : OState)
    (h : t ∈ succs (chainGraph n) s) : chainRank s < chainRank t := by
  simp only [succs, chainGraph, List.mem_flatMap, List.mem_map,
    List.mem_range] at h
  obtain ⟨e, ⟨k, hk, hke⟩, hmem⟩ := h
  subst hke
  simp only [List.mem_append, List.mem_ite_nil_right, List.mem_singleton,
    Bool.not_false] at hmem
  rcases hmem with ⟨hs, ht⟩ | ⟨hs, ht⟩ <;> subst ht <;> rw [← hs] <;>
    simp [chainRank]

theorem transGen_chainRank (n : Nat) (s t : OState)
    (h : Relation.TransGen (fun a b => b ∈ succs (chainGraph n) a) s t) :
    chainRank s < chainRank t := by
  induction h with
  | single hstep => exact chain_succs_rank n _ _ hstep
  | tail _ hstep ih => exact lt_trans ih (chain_succs_rank n _ _ hstep)

/-- For states of a chain-plus-one-extra-edge graph, arcs of the chain edges
are still present. -/
theorem chain_arc_mem (n : Nat) (e' : Edge) (k : Nat) (hk : k + 1 < n) :
    ((k+1 : Nat), false) ∈ succs (addEdge (chainGraph n) e') ((k : Nat), false) := by
  simp only [succs, addEdge, chainGraph, List.mem_flatMap, List.mem_append]
  refine ⟨⟨k, k+1, false, false, 0⟩, ?_, ?_⟩
  · left
    simp only [List.mem_map, List.mem_range]
    exact ⟨k, by omega, rfl⟩
  · simp

/-- Forward path along the chain: node `i + d` is reachable from node `i`. -/
theorem chain_path (n : Nat) (e' : Edge) (i d : Nat) (hd : 1 ≤ d)
    (hn : i + d < n) :
    ((i + d : Nat), false) ∈ reachN (addEdge (chainGraph n) e') (d - 1) ((i : Nat), false) := by
  induction d with
  | zero => omega
  | succ m ih =>
    rcases Nat.eq_or_lt_of_le hd with h1 | hlt
    · have hm : m = 0 := by omega
      subst hm
      exact succs_mem_reachN _ _ _ _ (chain_arc_mem n e' i (by omega))
    · have hm1 : 1 ≤ m := by omega
      have hstep : ((i + m + 1 : Nat), false) ∈
          succs (addEdge (chainGraph n) e') ((i + m : Nat), false) :=
        chain_arc_mem n e' (i + m) (by omega)
      have hprev := ih hm1 (by omega)
      have := reachN_extend _ (m - 1) _ _ _ hprev hstep
      have hms : m - 1 + 1 = m + 1 - 1 := by omega
      rw [hms] at this
      have hix : i + m + 1 = i + (m + 1) := by omega
      rw [hix] at this
      exact this

theorem chainGraph_nodes_length (n : Nat) : (chainGraph n).nodes.length = n := by
  simp [chainGraph]

/-- C4: `is_acyclic` returns true on every single-forward-chain graph, and
returns false as soon as a back edge is added to such a chain, whether the
back edge is plain (both orientation flags false, from node j back to node i)
or uses both the from-start and to-end flags (from node i to node j). -/
theorem is_acyclic_chain_spec :
    (∀ n : Nat, is_acyclic (chainGraph n) = true) ∧
    (∀ n i j : Nat, i ≤ j → j < n →
      is_acyclic (addEdge (chainGraph n) ⟨j, i, false, false, 0⟩) = false ∧
      is_acyclic (addEdge (chainGraph n) ⟨i, j, true, true, 0⟩) = false) := by
  constructor
  · intro n
    unfold is_acyclic
    rw [Bool.not_eq_true']
    rw [List.any_eq_false]
    intro s _
    rw [Bool.not_eq_true, decide_eq_false_iff_not]
    intro hmem
    have := transGen_chainRank n s s (reachN_sound _ _ _ _ hmem)
    exact lt_irrefl _ this
  · intro n i j hij hjn
    have harc₁ : ((i : Nat), false) ∈
        succs (addEdge (chainGraph n) ⟨j, i, false, false, 0⟩) ((j : Nat), false) := by
      simp only [succs, addEdge, List.mem_flatMap, List.mem_append]
      exact ⟨⟨j, i, false, false, 0⟩, Or.inr (List.mem_singleton.mpr rfl), by simp⟩
    have harc₂ : ((i : Nat), false) ∈
        succs (addEdge (chainGraph n) ⟨i, j, true, true, 0⟩) ((j : Nat), false) := by
      simp only [succs, addEdge, List.mem_flatMap, List.mem_append]
      exact ⟨⟨i, j, true, true, 0⟩, Or.inr (List.mem_singleton.mpr rfl), by simp⟩
    have hcyc : ∀ e' : Edge,
        (((i : Nat), false) ∈ succs (addEdge (chainGraph n) e') ((j : Nat), false)) →
        is_acyclic (addEdge (chainGraph n) e') = false := by
      intro e' harc
      unfold is_acyclic
      rw [Bool.not_eq_false']
      rw [List.any_eq_true]
      refine ⟨((i : Nat), false), ?_, ?_⟩
      · simp only [allStates, addEdge, chainGraph, List.mem_append, List.mem_map,
          List.mem_range]
        left
        exact ⟨⟨i, ['A']⟩, ⟨i, by omega, rfl⟩, rfl⟩
      · rw [decide_eq_true_iff]
        rcases Nat.eq_or_lt_of_le hij with rfl | hlt
        · exact succs_mem_reachN _ _ _ _ harc
        · have hpath := chain_path n e' i (j - i) (by omega) (by omega)
          have hij' : i + (j - i) = j := by omega
          rw [hij'] at hpath
          have hstep := reachN_extend _ (j - i - 1) _ _ _ hpath harc
          apply reachN_mono _ (j - i - 1 + 1) _ (by
            simp only [addEdge, chainGraph]
            rw [List.length_map, List.length_range]
            omega) _ _ hstep
    exact ⟨hcyc _ harc₁, hcyc _ harc₂⟩

/-- Witness for C4 at the two-node instances of the unit tests. -/
theorem is_acyclic_chain_spec_witness :
    is_acyclic (chainGraph 2) = true ∧
    is_acyclic (addEdge (chainGraph 2) ⟨1, 0, false, false, 0⟩) = false ∧
    is_acyclic (addEdge (chainGraph 2) ⟨0, 1, true, true, 0⟩) = false :=
  ⟨is_acyclic_chain_spec.1 2,
   (is_acyclic_chain_spec.2 2 0 1 (by decide) (by decide)).1,
   (is_acyclic_chain_spec.2 2 0 1 (by decide) (by decide)).2⟩

/-! ## Unfolder (spec section 4.4)

Modelled from the spec: `unfold` duplicates a node into a forward copy and a
reverse-complement copy whenever the reverse orientation is actually
reachable along explored walks from the forward strand, bounding the
accumulated sequence length along a walk by `max_length`; every materialized
(original id, orientation) pair becomes a node recorded in the translation
map, and every arc between materialized states becomes a purely forward
(non-reversing) edge. -/

/-- The node ids of a graph. -/
def nodeIds (g : Graph) : List Nat := g.nodes.map Node.id

/-- Find the node bearing an id. -/
def findNode (g : Graph) (i : Nat) : Option Node :=
  g.nodes.find? (fun n => n.id = i)

/-- The sequence length contributed by entering the node with the given id. -/
def seqLenOf (g : Graph) (i : Nat) : Nat :=
  match findNode g i with
  | some n => n.seq.length
  | none => 0

/-- The forward state of every node: the seed points of the traversal. -/
def forwardSeeds (g : Graph) : List OState :=
  g.nodes.map (fun n => (n.id, false))

/-- One traversal step within the length bound: successors of an explored
state whose accumulated sequence length stays at most `L`. -/
def budgetStep (g : Graph) (L : Nat) (p : OState × Nat) : List (OState × Nat) :=
  (succs g p.1).filterMap (fun t =>
    if p.2 + seqLenOf g t.1 ≤ L then some (t, p.2 + seqLenOf g t.1) else none)

/-- States explored after `k` rounds of expansion from the forward seeds,
together with the accumulated sequence length of the walk that reached them. -/
def budgetReach (g : Graph) (L : Nat) : Nat → List (OState × Nat)
  | 0 => (forwardSeeds g).map (fun s => (s, 0))
  | k+1 =>
    let r := budgetReach g L k
    (r ++ r.flatMap (budgetStep g L)).dedup

/-- The (original id, orientation) pairs materialized by unfolding: states of
existing nodes explored within the length bound. -/
def unfoldStates (g : Graph) (L : Nat) : List OState :=
  (((budgetReach g L (2 * g.nodes.length)).map Prod.fst).dedup).filter
    (fun s => decide (s.1 ∈ nodeIds g))

/-- The fresh node id given to a materialized state. -/
def stateId (s : OState) : Nat := 2 * s.1 + (if s.2 then 1 else 0)

/-- The node materialized for a state: the original's sequence on the forward
strand, its reverse complement on the reverse strand. -/
def mkUnfoldNode (g : Graph) (s : OState) : Node :=
  ⟨stateId s,
   match findNode g s.1 with
   | some n => if s.2 then reverse_complement n.seq else n.seq
   | none => []⟩

/-- The result edges: each arc of the oriented-state graph whose two states
are materialized becomes a purely forward, non-reversing, zero-overlap edge
between the corresponding new nodes. -/
def unfoldEdges (g : Graph) (sts : List OState) : List Edge :=
  g.edges.flatMap (fun e =>
    (if (e.efrom, e.fromStart) ∈ sts ∧ (e.eto, e.toEnd) ∈ sts then
      [⟨stateId (e.efrom, e.fromStart), stateId (e.eto, e.toEnd), false, false, 0⟩]
     else []) ++
    (if (e.eto, !e.toEnd) ∈ sts ∧ (e.efrom, !e.fromStart) ∈ sts then
      [⟨stateId (e.eto, !e.toEnd), stateId (e.efrom, !e.fromStart), false, false, 0⟩]
     else []))

/-- Modelled from the spec: `unfold(graph, max_length)` returning the new
graph and the translation map (derived id to (original id, flipped)). -/
def unfold (g : Graph) (L : Nat) : Graph × List (Nat × (Nat × Bool)) :=
  let sts := unfoldStates g L
  (⟨sts.map (mkUnfoldNode g), unfoldEdges g sts⟩,
   sts.map (fun s => (stateId s, s)))

theorem unfoldStates_nodup (g : Graph) (L : Nat) : (unfoldStates g L).Nodup :=
  (List.nodup_dedup _).filter _

theorem unfoldStates_ids (g : Graph) (L : Nat) :
    ∀ s ∈ unfoldStates g L, s.1 ∈ nodeIds g := by
  intro s hs
  have := List.of_mem_filter hs
  exact of_decide_eq_true this

/-- C3: in the graph returned by `unfold`, every edge is non-reversing
(from-start and to-end flags both false), and the number of nodes is at most
twice the number of nodes of the input graph. -/
theorem unfold_spec (g : Graph) (L : Nat) :
    (∀ e ∈ (unfold g L).1.edges, e.fromStart = false ∧ e.toEnd = false) ∧
    (unfold g L).1.nodes.length ≤ 2 * g.nodes.length := by
  constructor
  · intro e he
    simp only [unfold, unfoldEdges, List.mem_flatMap, List.mem_append,
      List.mem_ite_nil_right, List.mem_singleton] at he
    obtain ⟨e', _, h⟩ := he
    rcases h with ⟨_, rfl⟩ | ⟨_, rfl⟩ <;> exact ⟨rfl, rfl⟩
  · have hlen : (unfold g L).1.nodes.length = (unfoldStates g L).length := by
      simp [unfold]
    rw [hlen]
    have hsub : unfoldStates g L ⊆ (nodeIds g).dedup ×ˢ [false, true] := by
      intro s hs
      rcases s with ⟨i, b⟩
      rw [List.mem_product]
      refine ⟨List.mem_dedup.mpr (unfoldStates_ids g L _ hs), ?_⟩
      cases b <;> simp
    have hle := (List.subperm_of_subset (unfoldStates_nodup g L) hsub).length_le
    calc (unfoldStates g L).length
        ≤ ((nodeIds g).dedup ×ˢ [false, true]).length := hle
      _ = (nodeIds g).dedup.length * 2 := by
          rw [List.length_product]
          simp
      _ ≤ g.nodes.length * 2 := by
          have := (List.dedup_sublist (nodeIds g)).length_le
          have hids : (nodeIds g).length = g.nodes.length := by
            simp [nodeIds]
          omega
      _ = 2 * g.nodes.length := Nat.mul_comm _ _

/-- Well-formedness of the graph arena: node ids are unique and every edge
endpoint refers to an existing node (spec sections 3, 7, 9). -/
def GraphWF (g : Graph) : Prop :=
  (nodeIds g).Nodup ∧ ∀ e ∈ g.edges, e.efrom ∈ nodeIds g ∧ e.eto ∈ nodeIds g

/-- A graph with no reversing edges: both orientation flags false on every
edge. -/
def nonReversing (g : Graph) : Prop :=
  ∀ e ∈ g.edges, e.fromStart = false ∧ e.toEnd = false

/-- Total sequence content of a graph. -/
def totalSeqLen (g : Graph) : Nat :=
  (g.nodes.map (fun n => n.seq.length)).sum

theorem succs_forward (g : Graph) (hnr : nonReversing g) (s t : OState)
    (hs : s.2 = false) (ht : t ∈ succs g s) : t.2 = false := by
  simp only [succs, List.mem_flatMap, List.mem_append, List.mem_ite_nil_right,
    List.mem_singleton] at ht
  obtain ⟨e, he, hm⟩ := ht
  obtain ⟨hff, hte⟩ := hnr e he
  rcases hm with ⟨_, rfl⟩ | ⟨hc, _⟩
  · exact hte
  · exfalso
    have := congrArg Prod.snd hc
    rw [hte] at this
    simp only at this
    rw [hs] at this
    simp at this

theorem budgetReach_forward (g : Graph) (hnr : nonReversing g) (L : Nat) :
    ∀ k p, p ∈ budgetReach g L k → p.1.2 = false := by
  intro k
  induction k with
  | zero =>
    intro p hp
    simp only [budgetReach, forwardSeeds, List.map_map, List.mem_map] at hp
    obtain ⟨n, _, hn⟩ := hp
    rw [← hn]
    rfl
  | succ m ih =>
    intro p hp
    simp only [budgetReach, List.mem_dedup, List.mem_append,
      List.mem_flatMap] at hp
    rcases hp with h | ⟨q, hq, hstep⟩
    · exact ih p h
    · simp only [budgetStep, List.mem_filterMap] at hstep
      obtain ⟨t, htm, hsome⟩ := hstep
      by_cases hb : q.2 + seqLenOf g t.1 ≤ L
      · rw [if_pos hb] at hsome
        have : p = (t, q.2 + seqLenOf g t.1) := ((Option.some.injEq _ _).mp hsome).symm
        subst this
        exact succs_forward g hnr q.1 t (ih q hq) htm
      · rw [if_neg hb] at hsome
        cases hsome

theorem seeds_mem_budgetReach (g : Graph) (L : Nat) :
    ∀ k, ∀ n ∈ g.nodes, (((n.id : Nat), false), 0) ∈ budgetReach g L k := by
  intro k
  induction k with
  | zero =>
    intro n hn
    simp only [budgetReach, forwardSeeds, List.map_map, List.mem_map]
    exact ⟨n, hn, rfl⟩
  | succ m ih =>
    intro n hn
    simp only [budgetReach, List.mem_dedup, List.mem_append]
    exact Or.inl (ih n hn)

theorem mem_unfoldStates_iff (g : Graph) (hnr : nonReversing g) (L : Nat)
    (s : OState) :
    s ∈ unfoldStates g L ↔ s.2 = false ∧ s.1 ∈ nodeIds g := by
  constructor
  · intro hs
    refine ⟨?_, unfoldStates_ids g L s hs⟩
    have := List.mem_of_mem_filter hs
    rw [List.mem_dedup] at this
    obtain ⟨p, hp, hps⟩ := List.mem_map.mp this
    rw [← hps]
    exact budgetReach_forward g hnr L _ p hp
  · rintro ⟨hb, hid⟩
    obtain ⟨n, hn, hid'⟩ := List.mem_map.mp hid
    unfold unfoldStates
    rw [List.mem_filter]
    constructor
    · rw [List.mem_dedup, List.mem_map]
      refine ⟨(((n.id : Nat), false), 0), seeds_mem_budgetReach g L _ n hn, ?_⟩
      rcases s with ⟨i, b⟩
      simp only at hb
      subst hb
      simp only at hid'
      rw [hid']
    · exact decide_eq_true hid

theorem find_by_id (l : List Node) (h : (l.map Node.id).Nodup) (n : Node)
    (hn : n ∈ l) : l.find? (fun m => m.id = n.id) = some n := by
  induction l with
  | nil => cases hn
  | cons a t ih =>
    rcases List.mem_cons.mp hn with rfl | hmem
    · rw [List.find?_cons_of_pos _ (by simp)]
    · by_cases hae : a.id = n.id
      · exfalso
        rw [List.map_cons, List.nodup_cons] at h
        exact h.1 (hae ▸ List.mem_map_of_mem Node.id hmem)
      · rw [List.find?_cons_of_neg _ (by simp [hae])]
        rw [List.map_cons, List.nodup_cons] at h
        exact ih h.2 hmem

theorem findNode_eq (g : Graph) (hnodup : (nodeIds g).Nodup) (n : Node)
    (hn : n ∈ g.nodes) : findNode g n.id = some n :=
  find_by_id g.nodes hnodup n hn

theorem flatMap_eq_map {α β : Type} (l : List α) (f : α → List β) (h : α → β)
    (hf : ∀ x ∈ l, f x = [h x]) : l.flatMap f = l.map h := by
  induction l with
  | nil => rfl
  | cons a t ih =>
    rw [List.flatMap_cons, List.map_cons, hf a (List.mem_cons_self a t),
      ih (fun x hx => hf x (List.mem_cons_of_mem a hx))]
    rfl

/-- C8: on a well-formed graph with no reversing edges and a length bound at
least the total sequence, `unfold` yields a graph isomorphic to the input:
node, edge and translation counts are preserved, every original node appears
exactly as the (unflipped) materialization of its forward state with its
original sequence, the translation is exactly the one-to-one map of result
nodes onto original forward states, and the edge list is exactly the image
of the original edge list with the same endpoints in forward orientation. -/
theorem unfold_nonreversing_iso (g : Graph) (L : Nat) (hwf : GraphWF g)
    (hnr : nonReversing g) (htot : totalSeqLen g ≤ L) :
    (unfold g L).1.nodes.length = g.nodes.length ∧
    (unfold g L).1.edges.length = g.edges.length ∧
    (unfold g L).2.length = g.nodes.length ∧
    (unfold g L).1.nodes = ((unfold g L).2.map Prod.snd).map (mkUnfoldNode g) ∧
    (∀ p ∈ (unfold g L).2, ∃ n ∈ g.nodes, p = (stateId ((n.id : Nat), false), ((n.id : Nat), false))) ∧
    (∀ n ∈ g.nodes, (stateId ((n.id : Nat), false), ((n.id : Nat), false)) ∈ (unfold g L).2) ∧
    (∀ n ∈ g.nodes, Node.mk (stateId ((n.id : Nat), false)) n.seq ∈ (unfold g L).1.nodes) ∧
    (unfold g L).1.edges = g.edges.map
      (fun e => ⟨stateId ((e.efrom : Nat), false), stateId ((e.eto : Nat), false), false, false, 0⟩) := by
  obtain ⟨hnodup, hends⟩ := hwf
  have hstiff := mem_unfoldStates_iff g hnr L
  have hstates_seeds : ∀ s, s ∈ unfoldStates g L ↔ s ∈ forwardSeeds g := by
    intro s
    rw [hstiff s]
    unfold forwardSeeds nodeIds
    constructor
    · rintro ⟨hb, hid⟩
      obtain ⟨n, hn, hni⟩ := List.mem_map.mp hid
      rw [List.mem_map]
      refine ⟨n, hn, ?_⟩
      rcases s with ⟨i, b⟩
      simp only at hb
      subst hb
      simp only at hni
      rw [hni]
    · intro hmem
      obtain ⟨n, hn, hns⟩ := List.mem_map.mp hmem
      rw [← hns]
      exact ⟨rfl, List.mem_map_of_mem Node.id hn⟩
  have hseeds_nodup : (forwardSeeds g).Nodup := by
    unfold forwardSeeds
    have : (fun n : Node => ((n.id : Nat), false)) = (fun i => (i, false)) ∘ Node.id := rfl
    rw [this, ← List.map_map]
    exact hnodup.map (fun a b hab => (Prod.mk.injEq _ _ _ _).mp hab |>.1)
  have hlen_states : (unfoldStates g L).length = g.nodes.length := by
    have h1 := (List.subperm_of_subset (unfoldStates_nodup g L)
      (fun s hs => (hstates_seeds s).mp hs)).length_le
    have h2 := (List.subperm_of_subset hseeds_nodup
      (fun s hs => (hstates_seeds s).mpr hs)).length_le
    have h3 : (forwardSeeds g).length = g.nodes.length := by
      simp [forwardSeeds]
    omega
  have hedges_eq : unfoldEdges g (unfoldStates g L) = g.edges.map
      (fun e => ⟨stateId ((e.efrom : Nat), false), stateId ((e.eto : Nat), false), false, false, 0⟩) := by
    unfold unfoldEdges
    apply flatMap_eq_map
    intro e he
    obtain ⟨hff, hte⟩ := hnr e he
    obtain ⟨hf, ht⟩ := hends e he
    rw [hff, hte]
    rw [if_pos ⟨(hstiff _).mpr ⟨rfl, hf⟩, (hstiff _).mpr ⟨rfl, ht⟩⟩]
    rw [if_neg ?_]
    · simp
    · rintro ⟨hc, _⟩
      have := ((hstiff _).mp hc).1
      simp at this
  refine ⟨?_, ?_, ?_, ?_, ?_, ?_, ?_, ?_⟩
  · simp only [unfold, List.length_map]
    exact hlen_states
  · simp only [unfold]
    rw [hedges_eq, List.length_map]
  · simp only [unfold, List.length_map]
    exact hlen_states
  · simp only [unfold, List.map_map]
    rfl
  · intro p hp
    simp only [unfold, List.mem_map] at hp
    obtain ⟨s, hs, hsp⟩ := hp
    have := (hstates_seeds s).mp hs
    obtain ⟨n, hn, hns⟩ := List.mem_map.mp this
    exact ⟨n, hn, by rw [← hsp, ← hns]⟩
  · intro n hn
    simp only [unfold, List.mem_map]
    exact ⟨((n.id : Nat), false),
      (hstates_seeds _).mpr (List.mem_map_of_mem _ hn), rfl⟩
  · intro n hn
    simp only [unfold, List.mem_map]
    refine ⟨((n.id : Nat), false),
      (hstates_seeds _).mpr (List.mem_map_of_mem _ hn), ?_⟩
    unfold mkUnfoldNode
    rw [findNode_eq g hnodup n hn]
    simp
  · simp only [unfold]
    exact hedges_eq

/-- The four-node graph of the non-reversing unfold unit test: sequences
ATA, CT, TGA, GGC with plain edges 1-2, 1-3, 2-4, 3-4. -/
def unfoldTestGraph : Graph :=
  ⟨[⟨1, ['A','T','A']⟩, ⟨2, ['C','T']⟩, ⟨3, ['T','G','A']⟩, ⟨4, ['G','G','C']⟩],
   [⟨1, 2, false, false, 0⟩, ⟨1, 3, false, false, 0⟩,
    ⟨2, 4, false, false, 0⟩, ⟨3, 4, false, false, 0⟩]⟩

/-- Witness for C8 at the unit test's non-reversing graph with bound 10000. -/
theorem unfold_nonreversing_iso_witness :
    GraphWF unfoldTestGraph ∧ nonReversing unfoldTestGraph ∧
    totalSeqLen unfoldTestGraph ≤ 10000 ∧
    (unfold unfoldTestGraph 10000).1.nodes.length = unfoldTestGraph.nodes.length ∧
    (unfold unfoldTestGraph 10000).1.edges.length = unfoldTestGraph.edges.length :=
  ⟨by unfold GraphWF; decide, by unfold nonReversing; decide, by decide,
   (unfold_nonreversing_iso unfoldTestGraph 10000
     (by unfold GraphWF; decide) (by unfold nonReversing; decide) (by decide)).1,
   (unfold_nonreversing_iso unfoldTestGraph 10000
     (by unfold GraphWF; decide) (by unfold nonReversing; decide) (by decide)).2.1⟩

/-! ## Context Expander (spec section 4.3)

Modelled from the spec: `expand_context_by_length` performs length-bounded
breadth-first growth from the nodes already present in the partial graph
(the seeds); candidate neighbors are discovered via edges incident on
present NodeSides, except that growth through a side present in
`barrier_sides` is forbidden even though the owning node stays in the
result; edges directly between two seed nodes are never added. -/

/-- One growth step: neighbors of the node `p.1` discovered through an edge
neither of whose attachment sides is a barrier, within the length bound. -/
def ctxStep (g : Graph) (L : Nat) (barriers : List NodeSide)
    (p : Nat × Nat) : List (Nat × Nat) :=
  g.edges.flatMap (fun e =>
    if e.fromSide ∈ barriers ∨ e.toSide ∈ barriers then []
    else
      (if e.efrom = p.1 ∧ p.2 + seqLenOf g e.eto ≤ L then
        [(e.eto, p.2 + seqLenOf g e.eto)] else []) ++
      (if e.eto = p.1 ∧ p.2 + seqLenOf g e.efrom ≤ L then
        [(e.efrom, p.2 + seqLenOf g e.efrom)] else []))

/-- Breadth-first growth from the seeds, tracking cumulative added length. -/
def ctxReach (g : Graph) (L : Nat) (barriers : List NodeSide)
    (seeds : List Nat) : Nat → List (Nat × Nat)
  | 0 => seeds.map (fun i => (i, 0))
  | k+1 =>
    let r := ctxReach g L barriers seeds k
    (r ++ r.flatMap (ctxStep g L barriers)).dedup

/-- Modelled from the spec: barrier-respecting bounded context expansion.
The partial graph `ctx` is augmented with the nodes discovered by the
growth and with the edges of `g` joining present nodes, except edges
incident on a barrier side and edges directly between two seed nodes. -/
def expand_context_by_length (g ctx : Graph) (L : Nat)
    (barriers : List NodeSide) : Graph :=
  let seeds := nodeIds ctx
  let reached :=
    ((ctxReach g L barriers seeds (2 * g.nodes.length)).map Prod.fst).dedup
  let newNodes :=
    (reached.filter (fun i => decide (i ∉ seeds))).filterMap (findNode g)
  let newEdges := g.edges.filter (fun e =>
    decide (e.fromSide ∉ barriers) && decide (e.toSide ∉ barriers) &&
    decide (e.efrom ∈ reached) && decide (e.eto ∈ reached) &&
    !(decide (e.efrom ∈ seeds) && decide (e.eto ∈ seeds)) &&
    decide (e ∉ ctx.edges))
  ⟨ctx.nodes ++ newNodes, ctx.edges ++ newEdges⟩

theorem ctxReach_reaches_via_allowed_edge (g : Graph) (L : Nat)
    (barriers : List NodeSide) (seeds : List Nat) :
    ∀ k p, p ∈ ctxReach g L barriers seeds k →
      p.1 ∈ seeds ∨ ∃ e ∈ g.edges,
        e.fromSide ∉ barriers ∧ e.toSide ∉ barriers ∧
        (e.efrom = p.1 ∨ e.eto = p.1) := by
  intro k
  induction k with
  | zero =>
    intro p hp
    simp only [ctxReach, List.mem_map] at hp
    obtain ⟨i, hi, hip⟩ := hp
    exact Or.inl (hip ▸ hi)
  | succ m ih =>
    intro p hp
    simp only [ctxReach, List.mem_dedup, List.mem_append,
      List.mem_flatMap] at hp
    rcases hp with h | ⟨q, _, hstep⟩
    · exact ih p h
    · simp only [ctxStep, List.mem_flatMap] at hstep
      obtain ⟨e, he, hm⟩ := hstep
      by_cases hb : e.fromSide ∈ barriers ∨ e.toSide ∈ barriers
      · rw [if_pos hb] at hm
        cases hm
      · rw [if_neg hb] at hm
        push_neg at hb
        simp only [List.mem_append, List.mem_ite_nil_right,
          List.mem_singleton] at hm
        rcases hm with ⟨_, rfl⟩ | ⟨_, rfl⟩
        · exact Or.inr ⟨e, he, hb.1, hb.2, Or.inr rfl⟩
        · exact Or.inr ⟨e, he, hb.1, hb.2, Or.inl rfl⟩

theorem ctxReach_barred_seed (g : Graph) (L : Nat) (barriers : List NodeSide)
    (i : Nat) (hs : (⟨i, false⟩ : NodeSide) ∈ barriers)
    (he : (⟨i, true⟩ : NodeSide) ∈ barriers) :
    ∀ k p, p ∈ ctxReach g L barriers [i] k → p.1 = i := by
  intro k
  induction k with
  | zero =>
    intro p hp
    simp only [ctxReach, List.mem_map, List.mem_singleton] at hp
    obtain ⟨j, hj, hjp⟩ := hp
    rw [← hjp, hj]
  | succ m ih =>
    intro p hp
    simp only [ctxReach, List.mem_dedup, List.mem_append,
      List.mem_flatMap] at hp
    rcases hp with h | ⟨q, hq, hstep⟩
    · exact ih p h
    · exfalso
      have hqi := ih q hq
      simp only [ctxStep, List.mem_flatMap] at hstep
      obtain ⟨e, _, hm⟩ := hstep
      by_cases hb : e.fromSide ∈ barriers ∨ e.toSide ∈ barriers
      · rw [if_pos hb] at hm
        cases hm
      · rw [if_neg hb] at hm
        push_neg at hb
        simp only [List.mem_append, List.mem_ite_nil_right,
          List.mem_singleton] at hm
        rcases hm with ⟨⟨hef, _⟩, _⟩ | ⟨⟨het, _⟩, _⟩
        · rw [hqi] at hef
          rcases e with ⟨f, t, ff, te, ov⟩
          simp only [Edge.fromSide] at hb
          simp only at hef
          subst hef
          cases ff
          · exact hb.1 (by simpa using he)
          · exact hb.1 (by simpa using hs)
        · rw [hqi] at het
          rcases e with ⟨f, t, ff, te, ov⟩
          simp only [Edge.toSide] at hb
          simp only at het
          subst het
          cases te
          · exact hb.2 (by simpa using hs)
          · exact hb.2 (by simpa using he)

/-- C9: context expansion never grows through a barrier side: every edge the
expansion adds has neither attachment side among the barriers, the seed
nodes themselves always stay in the result, every node the expansion adds
was reached through an edge avoiding all barrier sides, and when the only
seed node has barriers on both of its sides the result contains exactly
that node. -/
theorem expand_context_by_length_spec (g ctx : Graph) (L : Nat)
    (barriers : List NodeSide) :
    (∀ e ∈ (expand_context_by_length g ctx L barriers).edges,
      e ∈ ctx.edges ∨ (e.fromSide ∉ barriers ∧ e.toSide ∉ barriers)) ∧
    (∀ n ∈ ctx.nodes, n ∈ (expand_context_by_length g ctx L barriers).nodes) ∧
    (∀ m ∈ (expand_context_by_length g ctx L barriers).nodes,
      m ∉ ctx.nodes → ∃ e ∈ g.edges,
        e.fromSide ∉ barriers ∧ e.toSide ∉ barriers ∧
        (e.efrom = m.id ∨ e.eto = m.id)) ∧
    (∀ n : Node, ctx.nodes = [n] →
      (⟨n.id, false⟩ : NodeSide) ∈ barriers →
      (⟨n.id, true⟩ : NodeSide) ∈ barriers →
      (expand_context_by_length g ctx L barriers).nodes = [n]) := by
  refine ⟨?_, ?_, ?_, ?_⟩
  · intro e he
    simp only [expand_context_by_length, List.mem_append] at he
    rcases he with h | h
    · exact Or.inl h
    · right
      have := List.of_mem_filter h
      simp only [Bool.and_eq_true, decide_eq_true_eq] at this
      exact ⟨this.1.1.1.1.1, this.1.1.1.1.2⟩
  · intro n hn
    simp only [expand_context_by_length, List.mem_append]
    exact Or.inl hn
  · intro m hm hnotin
    simp only [expand_context_by_length, List.mem_append] at hm
    rcases hm with h | h
    · exact absurd h hnotin
    · obtain ⟨i, hi, hfind⟩ := List.mem_filterMap.mp h
      have hi' := List.mem_of_mem_filter hi
      rw [List.mem_dedup] at hi'
      obtain ⟨p, hp, hpi⟩ := List.mem_map.mp hi'
      have := ctxReach_reaches_via_allowed_edge g L barriers (nodeIds ctx)
        _ p hp
      have hmid : m.id = i := by
        have := List.find?_some hfind
        exact of_decide_eq_true this
      rcases this with hseed | hedge
      · exfalso
        have := List.of_mem_filter hi
        rw [decide_eq_true_eq] at this
        exact this (hpi ▸ hseed)
      · obtain ⟨e, he, hb1, hb2, hinc⟩ := hedge
        exact ⟨e, he, hb1, hb2, by rw [hmid, ← hpi]; exact hinc⟩
  · intro n hctx hbs hbe
    simp only [expand_context_by_length]
    have hseeds : nodeIds ctx = [n.id] := by
      unfold nodeIds
      rw [hctx]
      rfl
    have hreached : ∀ i ∈ ((ctxReach g L barriers (nodeIds ctx)
        (2 * g.nodes.length)).map Prod.fst).dedup, i = n.id := by
      intro i hi
      rw [List.mem_dedup] at hi
      obtain ⟨p, hp, hpi⟩ := List.mem_map.mp hi
      rw [hseeds] at hp
      rw [← hpi]
      exact ctxReach_barred_seed g L barriers n.id hbs hbe _ p hp
    have hfilter : (((ctxReach g L barriers (nodeIds ctx)
        (2 * g.nodes.length)).map Prod.fst).dedup).filter
          (fun i => decide (i ∉ nodeIds ctx)) = [] := by
      rw [List.filter_eq_nil_iff]
      intro i hi
      rw [Bool.not_eq_true, decide_eq_false_iff_not, not_not]
      rw [hreached i hi, hseeds]
      exact List.mem_singleton.mpr rfl
    rw [hfilter]
    simp [hctx]

/-- The graph of the expand_context_by_length unit test. -/
def contextTestGraph : Graph :=
  ⟨[⟨1, "CCATTTGTCCAAAGT".toList⟩, ⟨2, "AAGCAAACACTG".toList⟩,
    ⟨3, ['C']⟩, ⟨4, ['T']⟩, ⟨5, "TACACTCTTGGAGGGAA".toList⟩,
    ⟨6, ['T']⟩, ⟨7, ['C']⟩, ⟨8, "AAAAACTAG".toList⟩,
    ⟨9, "AGTTGCAT".toList⟩, ⟨10, "TTCTCTGATGATGAG".toList⟩,
    ⟨11, "TGATGTTGAGGGTTTTTTTTGTCT".toList⟩,
    ⟨12, "ATTGGTCACTTGTACATCTTATTTTTACAA".toList⟩,
    ⟨13, "GAACGTTT".toList⟩],
   [⟨1, 9, true, false, 0⟩, ⟨1, 2, false, false, 0⟩, ⟨2, 3, false, false, 0⟩,
    ⟨2, 4, false, false, 0⟩, ⟨3, 5, false, false, 0⟩, ⟨4, 5, false, false, 0⟩,
    ⟨5, 6, false, false, 0⟩, ⟨5, 7, false, false, 0⟩, ⟨6, 8, false, false, 0⟩,
    ⟨7, 8, false, false, 0⟩, ⟨9, 10, false, false, 0⟩,
    ⟨10, 11, false, false, 0⟩, ⟨11, 12, false, false, 0⟩,
    ⟨12, 13, false, false, 0⟩]⟩

/-- Witness for C9: barriers on either end of seed node 3 stop anything
being extracted, as in the unit test. -/
theorem expand_context_by_length_spec_witness :
    (expand_context_by_length contextTestGraph ⟨[⟨3, ['C']⟩], []⟩ 1000
      [⟨3, false⟩, ⟨3, true⟩]).nodes = [⟨3, ['C']⟩] :=
  (expand_context_by_length_spec contextTestGraph ⟨[⟨3, ['C']⟩], []⟩ 1000
    [⟨3, false⟩, ⟨3, true⟩]).2.2.2 ⟨3, ['C']⟩ rfl (by decide) (by decide)

/-! ## Bluntifier (spec section 4.5)

Modelled from the spec: `bluntify` first computes, for each NodeSide, the
maximum overlap length demanded by any incident edge, splits each node at
the offsets implied by those maxima exactly once per side (two-phase: all
demands are collected before any split), reattaches every original
zero-overlap edge to the correct boundary piece consistent with its
orientation flags, connects adjacent pieces of the same original node with
new zero-overlap edges in sequence order, and resolves each overlapping edge
by identifying the two boundary pieces that denote the same bases (so that
shared bases are not counted twice), flipping attachment sides when the
identification reverses orientation. -/

/-- The maximum overlap demanded by any edge incident on a NodeSide. -/
def sideDemand (g : Graph) (s : NodeSide) : Nat :=
  (g.edges.map (fun e =>
    max (if e.fromSide = s then e.overlap else 0)
        (if e.toSide = s then e.overlap else 0))).foldr max 0

/-- The interior split offsets of a node, in increasing order: the start-side
demand and the end-side demand measured from the end, clamped to the
interior of the sequence. -/
def cutsOf (g : Graph) (n : Node) : List Nat :=
  let L := n.seq.length
  let a := sideDemand g ⟨n.id, false⟩
  let b := L - sideDemand g ⟨n.id, true⟩
  ([min a b, max a b].filter
    (fun c => decide (0 < c) && decide (c < L))).dedup

/-- Slices of a sequence between consecutive cut offsets. -/
def slicesFrom (s : Seq) : Nat → List Nat → List Seq
  | prev, [] => [s.drop prev]
  | prev, c :: cs => ((s.drop prev).take (c - prev)) :: slicesFrom s c cs

/-- The id given to piece `k` of the original node `i` (at most 3 pieces). -/
def pieceId (i k : Nat) : Nat := 3 * i + k

/-- The piece nodes a node is split into. -/
def pieceNodes (g : Graph) (n : Node) : List Node :=
  (slicesFrom n.seq 0 (cutsOf g n)).enum.map
    (fun p => ⟨pieceId n.id p.1, p.2⟩)

/-- The index of the end-side boundary piece of an original node. -/
def endPieceIdx (g : Graph) (i : Nat) : Nat :=
  match findNode g i with
  | some n => (cutsOf g n).length
  | none => 0

/-- Reattach a zero-overlap edge to the boundary pieces of its endpoints. -/
def reattach (g : Graph) (e : Edge) : Edge :=
  ⟨pieceId e.efrom (if e.fromStart then 0 else endPieceIdx g e.efrom),
   pieceId e.eto (if e.toEnd then endPieceIdx g e.eto else 0),
   e.fromStart, e.toEnd, 0⟩

/-- The identification induced by an overlapping edge: the overlap piece of
the from endpoint is merged into the overlap piece of the to endpoint, with
orientation flipped when exactly one endpoint attaches reversed. -/
def mergeOf (g : Graph) (e : Edge) : Nat × Nat × Bool :=
  (pieceId e.efrom (if e.fromStart then 0 else endPieceIdx g e.efrom),
   pieceId e.eto (if e.toEnd then endPieceIdx g e.eto else 0),
   xor e.fromStart e.toEnd)

/-- Rewrite one edge endpoint-wise under the identification of node `p` with
node `q` (flipping the attachment side when the identification reverses). -/
def substEdge (p q : Nat) (f : Bool) (e : Edge) : Edge :=
  ⟨if e.efrom = p then q else e.efrom,
   if e.eto = p then q else e.eto,
   if e.efrom = p then xor f e.fromStart else e.fromStart,
   if e.eto = p then xor f e.toEnd else e.toEnd,
   e.overlap⟩

/-- Apply the overlap identifications in order, deleting the merged piece,
rewriting all edges, and renaming the remaining identifications; the fuel
argument is the number of identifications left to process. -/
def applyMergesFuel : Nat → List (Nat × Nat × Bool) → List Node × List Edge →
    List Node × List Edge
  | 0, _, st => st
  | _+1, [], st => st
  | fuel+1, (p, q, f) :: rest, (ns, es) =>
    if p = q then applyMergesFuel fuel rest (ns, es)
    else
      applyMergesFuel fuel
        (rest.map (fun m =>
          (if m.1 = p then q else m.1,
           if m.2.1 = p then q else m.2.1,
           xor (xor (if m.1 = p then f else false)
                    (if m.2.1 = p then f else false)) m.2.2)))
        (ns.filter (fun n => decide (n.id ≠ p)), es.map (substEdge p q f))

/-- Apply all overlap identifications. -/
def applyMerges (l : List (Nat × Nat × Bool)) (st : List Node × List Edge) :
    List Node × List Edge :=
  applyMergesFuel l.length l st


/-- Modelled from the spec: overlap resolution (spec 4.5). -/
def bluntify (g : Graph) : Graph :=
  let ns := g.nodes.flatMap (pieceNodes g)
  let adjacency := g.nodes.flatMap (fun n =>
    (List.range (cutsOf g n).length).map (fun k =>
      ⟨pieceId n.id k, pieceId n.id (k+1), false, false, 0⟩))
  let keep := (g.edges.filter (fun e => decide (e.overlap = 0))).map (reattach g)
  let merges := (g.edges.filter (fun e => decide (0 < e.overlap))).map (mergeOf g)
  let st := applyMerges merges (ns, adjacency ++ keep)
  ⟨st.1, st.2⟩

/-- Whether the graph has an edge joining the two given NodeSides. -/
def Graph.has_edge (g : Graph) (s1 s2 : NodeSide) : Bool :=
  g.edges.any (fun e =>
    (e.fromSide = s1 && e.toSide = s2) || (e.fromSide = s2 && e.toSide = s1))

/-- The graph of the first bluntify unit test: GAA and AAT joined by a plain
edge with overlap 2. -/
def bluntifyTestGraph : Graph :=
  ⟨[⟨1, ['G','A','A']⟩, ⟨2, ['A','A','T']⟩], [⟨1, 2, false, false, 2⟩]⟩

/-- C1: bluntifying the graph with nodes GAA and AAT joined by an edge with
overlap 2 yields exactly 3 nodes with sequences G, AA and T, exactly 2
edges (end of the G node to start of the AA node, end of the AA node to
start of the T node), and every resulting edge has overlap 0. -/
theorem bluntify_overlap_test :
    ∃ gid aid tid : Nat,
      (bluntify bluntifyTestGraph).nodes =
        [⟨gid, ['G']⟩, ⟨aid, ['A','A']⟩, ⟨tid, ['T']⟩] ∧
      (bluntify bluntifyTestGraph).edges.length = 2 ∧
      (bluntify bluntifyTestGraph).has_edge ⟨gid, true⟩ ⟨aid, false⟩ = true ∧
      (bluntify bluntifyTestGraph).has_edge ⟨aid, true⟩ ⟨tid, false⟩ = true ∧
      ∀ e ∈ (bluntify bluntifyTestGraph).edges, e.overlap = 0 := by
  refine ⟨3, 6, 7, ?_, ?_, ?_, ?_, ?_⟩ <;> decide

/-! ## SnarlState haplotype lanes

Modelled from the spec: the lane-based haplotype-occupancy tracking is a
collaborator of the core engine; its implementation is absent from the
source tree, so it is modelled from its unit tests (genome_state.cpp) and
from the error-handling design (spec section 7, InvalidOrientation): a
SnarlState stores annotated haplotypes (lists of (handle, local lane)
visits) in overall-lane order; inserting at the front bumps the local lanes
of later haplotypes at the handles the new haplotype occupies below them;
a haplotype traversing the snarl in reverse orientation is rejected;
tracing a lane emits its visits in order, or, backward, the flipped handles
in reverse order. -/

/-- An oriented reference to a node: (node id, reverse flag). -/
abbrev Handle := Nat × Bool

/-- Flip a handle onto the opposite strand. -/
def flipHandle (h : Handle) : Handle := (h.1, !h.2)

/-- The state of one snarl: its boundary node ids and the annotated
haplotypes in overall-lane order. -/
structure SnarlState where
  start : Nat
  stop : Nat
  haplotypes : List (List (Handle × Nat))
deriving DecidableEq, Repr

/-- Number of haplotypes stored. -/
def SnarlState.size (st : SnarlState) : Nat := st.haplotypes.length

/-- The number of visits of `ins` occupying handle `h` at a local lane at or
below `l`: how far an existing visit at `(h, l)` is pushed up. -/
def bumpCount (ins : List (Handle × Nat)) (h : Handle) (l : Nat) : Nat :=
  (ins.filter (fun v => v.1 = h && decide (v.2 ≤ l))).length

/-- Push the local lanes of an existing haplotype up past the inserted one. -/
def bumpBy (ins : List (Handle × Nat)) (old : List (Handle × Nat)) :
    List (Handle × Nat) :=
  old.map (fun v => (v.1, v.2 + bumpCount ins v.1 v.2))

/-- Insert an annotated haplotype in overall lane 0; fails with an invalid
orientation when the haplotype traverses the snarl in reverse. -/
def SnarlState.insert (st : SnarlState) (hap : List (Handle × Nat)) :
    Option SnarlState :=
  match hap.head?, hap.getLast? with
  | some v1, some v2 =>
    if v1.1 = ((st.start : Nat), false) ∧ v2.1 = ((st.stop : Nat), false) then
      some ⟨st.start, st.stop, hap :: st.haplotypes.map (bumpBy hap)⟩
    else none
  | _, _ => none

/-- Trace the haplotype in the given overall lane, forward or backward. -/
def SnarlState.trace (st : SnarlState) (lane : Nat) (backward : Bool) :
    List (Handle × Nat) :=
  match st.haplotypes[lane]? with
  | none => []
  | some hap =>
    if backward then (hap.map (fun v => (flipHandle v.1, v.2))).reverse
    else hap

/-- C10: a successfully inserted haplotype traced forward in its lane gives
back exactly the inserted visits in order, and traced backward gives the
same visits with each handle flipped, in reverse order. -/
theorem snarlstate_insert_trace_roundtrip (st st' : SnarlState)
    (hap : List (Handle × Nat)) (h : st.insert hap = some st') :
    st'.trace 0 false = hap ∧
    st'.trace 0 true = (hap.map (fun v => (flipHandle v.1, v.2))).reverse := by
  unfold SnarlState.insert at h
  rcases hh : hap.head? with _ | v1
  · rw [hh] at h
    cases h
  · rcases hl : hap.getLast? with _ | v2
    · rw [hh, hl] at h
      cases h
    · rw [hh, hl] at h
      dsimp only at h
      by_cases hc : v1.1 = ((st.start : Nat), false) ∧ v2.1 = ((st.stop : Nat), false)
      · rw [if_pos hc] at h
        have hst : st' = ⟨st.start, st.stop, hap :: st.haplotypes.map (bumpBy hap)⟩ :=
          ((Option.some.injEq _ _).mp h).symm
        subst hst
        constructor
        · simp [SnarlState.trace]
        · simp [SnarlState.trace]
      · rw [if_neg hc] at h
        cases h

/-- Witness for C10 at the unit test's haplotype 1, 2, 8 through the snarl
from node 1 to node 8. -/
theorem snarlstate_insert_trace_roundtrip_witness :
    (SnarlState.insert ⟨1, 8, []⟩ [((1, false), 0), ((2, false), 0), ((8, false), 0)]
      = some ⟨1, 8, [[((1, false), 0), ((2, false), 0), ((8, false), 0)]]⟩) ∧
    SnarlState.trace ⟨1, 8, [[((1, false), 0), ((2, false), 0), ((8, false), 0)]]⟩ 0 false
      = [((1, false), 0), ((2, false), 0), ((8, false), 0)] ∧
    SnarlState.trace ⟨1, 8, [[((1, false), 0), ((2, false), 0), ((8, false), 0)]]⟩ 0 true
      = [((8, true), 0), ((2, true), 0), ((1, true), 0)] := by
  refine ⟨by decide, ?_, ?_⟩
  · exact (snarlstate_insert_trace_roundtrip ⟨1, 8, []⟩
      ⟨1, 8, [[((1, false), 0), ((2, false), 0), ((8, false), 0)]]⟩
      [((1, false), 0), ((2, false), 0), ((8, false), 0)] (by decide)).1
  · exact ((snarlstate_insert_trace_roundtrip ⟨1, 8, []⟩
      ⟨1, 8, [[((1, false), 0), ((2, false), 0), ((8, false), 0)]]⟩
      [((1, false), 0), ((2, false), 0), ((8, false), 0)] (by decide)).2).trans (by decide)

/-! ## Paths, mappings and edits (spec section 3)

A Path is an ordered sequence of Mappings; each Mapping anchors at a
Position (node id, base offset, orientation) and carries an ordered sequence
of Edits; each Edit has a from-length and a to-length, with a literal
sequence present only for insertions and substitutions. -/

/-- An Edit: from-length bases consumed on the node, to-length bases
produced in the path, and the literal produced sequence when it differs
from the node's bases. -/
structure Edit where
  fromLen : Nat
  toLen : Nat
  seq : Seq
deriving DecidableEq, Repr

/-- A Mapping: anchored at (node id, offset, orientation) with its edits. -/
structure Mapping where
  node : Nat
  offset : Nat
  rev : Bool
  edits : List Edit
deriving DecidableEq, Repr

/-- A Path: an ordered sequence of mappings. -/
structure Path where
  mappings : List Mapping
deriving DecidableEq, Repr

/-! ## Connectivity -/

/-- Two node ids joined by some edge, in either direction. -/
def adj (g : Graph) (a b : Nat) : Prop :=
  ∃ e ∈ g.edges, (e.efrom = a ∧ e.eto = b) ∨ (e.efrom = b ∧ e.eto = a)

/-- Multi-step undirected reachability along edges. -/
def Reaches (g : Graph) : Nat → Nat → Prop := Relation.ReflTransGen (adj g)

/-- A single connected component: every two node ids are joined by a chain
of edges (`disjoint_subgraphs` returns exactly one subgraph). -/
def Connected (g : Graph) : Prop :=
  ∀ a ∈ nodeIds g, ∀ b ∈ nodeIds g, Reaches g a b

theorem adj_symm (g : Graph) : Symmetric (adj g) := by
  rintro a b ⟨e, he, h⟩
  exact ⟨e, he, h.symm⟩

theorem Reaches_symm (g : Graph) {a b : Nat} (h : Reaches g a b) :
    Reaches g b a :=
  Relation.ReflTransGen.symmetric (adj_symm g) h

theorem Reaches_mono {g g' : Graph} (hsub : ∀ e ∈ g.edges, e ∈ g'.edges)
    {a b : Nat} (h : Reaches g a b) : Reaches g' a b :=
  Relation.ReflTransGen.mono
    (fun _ _ ⟨e, he, hor⟩ => ⟨e, hsub e he, hor⟩) h

/-- Adding edges to a graph keeps it connected. -/
theorem connected_add_edge (g : Graph) (hc : Connected g) (e : Edge) :
    Connected ⟨g.nodes, g.edges ++ [e]⟩ := by
  intro a ha b hb
  exact Reaches_mono (fun e' he' => List.mem_append_left _ he') (hc a ha b hb)

/-- Adding a fresh node together with an edge attaching it to a present node
keeps the graph connected. -/
theorem connected_add_attached (g : Graph) (hc : Connected g) (j : Nat)
    (sq : Seq) (e : Edge) (a : Nat) (ha : a ∈ nodeIds g)
    (he : (e.efrom = a ∧ e.eto = j) ∨ (e.efrom = j ∧ e.eto = a)) :
    Connected ⟨g.nodes ++ [⟨j, sq⟩], g.edges ++ [e]⟩ := by
  set g' : Graph := ⟨g.nodes ++ [⟨j, sq⟩], g.edges ++ [e]⟩ with hg'
  have hlift : ∀ x y, Reaches g x y → Reaches g' x y := fun x y h =>
    Reaches_mono (fun e' he' => List.mem_append_left _ he') h
  have hadjaj : adj g' a j :=
    ⟨e, List.mem_append_right _ (List.mem_singleton.mpr rfl), he⟩
  have hids : nodeIds g' = nodeIds g ++ [j] := by
    simp [hg', nodeIds]
  intro x hx y hy
  rw [hids, List.mem_append, List.mem_singleton] at hx hy
  rcases hx with hx | rfl <;> rcases hy with hy | rfl
  · exact hlift x y (hc x hx y hy)
  · exact (hlift x a (hc x hx a ha)).trans
      (Relation.ReflTransGen.single hadjaj)
  · exact (Reaches_symm g' (Relation.ReflTransGen.single hadjaj)).trans
      (hlift a y (hc a ha y hy))
  · exact Relation.ReflTransGen.refl

/-! ## Path Editor lower-level primitive (spec section 4.6)

Modelled from the spec: `add_nodes_and_edges` walks the path mapping by
mapping, wiring each mapping's entry side to the dangling exit side of the
previous step, and materializing each edit carrying a literal sequence as a
chain of fresh nodes, each within the maximum node length (a length cap can
force degenerate pieces), attached to the dangling side. -/

/-- The edge joining two NodeSides. -/
def connectSides (s1 s2 : NodeSide) : Edge :=
  ⟨s1.nid, s2.nid, !s1.isEnd, s2.isEnd, 0⟩

/-- Chunk a literal sequence into pieces of at most `max m 1` symbols
(fuel-driven; the fuel is the sequence length). -/
def chunkFuel : Nat → Seq → Nat → List Seq
  | 0, s, _ => [s]
  | fuel+1, s, m =>
    if s.length ≤ max m 1 then [s]
    else (s.take (max m 1)) :: chunkFuel fuel (s.drop (max m 1)) m

/-- Subdivide a newly created literal sequence to satisfy the configured
maximum node length. -/
def chunkSeq (s : Seq) (m : Nat) : List Seq := chunkFuel s.length s m

/-- The side through which a mapping's traversal enters its node. -/
def mappingEntry (m : Mapping) : NodeSide := ⟨m.node, m.rev⟩

/-- The side through which a mapping's traversal leaves its node. -/
def mappingExit (m : Mapping) : NodeSide := ⟨m.node, !m.rev⟩

/-- Materialize one chunk: a fresh node attached to the dangling side. -/
def addPieceNode (st : Graph × NodeSide × Nat) (sq : Seq) :
    Graph × NodeSide × Nat :=
  (⟨st.1.nodes ++ [⟨st.2.2, sq⟩],
    st.1.edges ++ [connectSides st.2.1 ⟨st.2.2, false⟩]⟩,
   ⟨st.2.2, true⟩, st.2.2 + 1)

/-- Process one edit: an edit carrying a literal sequence materializes a
chain of chunk nodes hanging off the dangling side; other edits only consume
reference bases. -/
def processEdit (maxLen : Nat) (st : Graph × NodeSide × Nat) (e : Edit) :
    Graph × NodeSide × Nat :=
  if e.seq = [] then st
  else (chunkSeq e.seq maxLen).foldl addPieceNode st

/-- Process one mapping: connect the previous dangling side to the mapping's
entry side, then process its edits with the mapping's exit side dangling. -/
def processMapping (maxLen : Nat) (st : Graph × Option NodeSide × Nat)
    (m : Mapping) : Graph × Option NodeSide × Nat :=
  let g1 : Graph := match st.2.1 with
    | some s => ⟨st.1.nodes, st.1.edges ++ [connectSides s (mappingEntry m)]⟩
    | none => st.1
  let r := m.edits.foldl (processEdit maxLen) (g1, mappingExit m, st.2.2)
  (r.1, some r.2.1, r.2.2)

/-- An id fresh for the graph. -/
def freshId (g : Graph) : Nat := (nodeIds g).foldr max 0 + 1

/-- Modelled from the spec: `add_nodes_and_edges(path, ..., max_node_length)`
(spec 4.6), mutating the graph along the path. -/
def add_nodes_and_edges (g : Graph) (p : Path) (maxLen : Nat) : Graph :=
  (p.mappings.foldl (processMapping maxLen) (g, none, freshId g)).1

/-- Invariant carried along the edit chain: the graph stays connected, the
dangling side belongs to a present node, and no original node is lost. -/
def ChInv (g0 : Graph) (st : Graph × NodeSide × Nat) : Prop :=
  Connected st.1 ∧ st.2.1.nid ∈ nodeIds st.1 ∧
  ∀ i ∈ nodeIds g0, i ∈ nodeIds st.1

/-- Invariant carried between mappings. -/
def StInv (g0 : Graph) (st : Graph × Option NodeSide × Nat) : Prop :=
  Connected st.1 ∧ (∀ s, st.2.1 = some s → s.nid ∈ nodeIds st.1) ∧
  ∀ i ∈ nodeIds g0, i ∈ nodeIds st.1

theorem addPieceNode_inv (g0 : Graph) (st : Graph × NodeSide × Nat)
    (h : ChInv g0 st) (sq : Seq) : ChInv g0 (addPieceNode st sq) := by
  obtain ⟨hc, hd, hmono⟩ := h
  refine ⟨?_, ?_, ?_⟩
  · exact connected_add_attached st.1 hc st.2.2 sq _ st.2.1.nid hd
      (Or.inl ⟨rfl, rfl⟩)
  · simp [addPieceNode, nodeIds]
  · intro i hi
    have := hmono i hi
    simp only [addPieceNode, nodeIds, List.map_append, List.mem_append]
    exact Or.inl this

theorem foldl_addPieceNode_inv (g0 : Graph) :
    ∀ (chunks : List Seq) (st : Graph × NodeSide × Nat), ChInv g0 st →
      ChInv g0 (chunks.foldl addPieceNode st) := by
  intro chunks
  induction chunks with
  | nil => intro st h; exact h
  | cons c cs ih =>
    intro st h
    exact ih _ (addPieceNode_inv g0 st h c)

theorem processEdit_inv (g0 : Graph) (maxLen : Nat)
    (st : Graph × NodeSide × Nat) (h : ChInv g0 st) (e : Edit) :
    ChInv g0 (processEdit maxLen st e) := by
  unfold processEdit
  by_cases hs : e.seq = []
  · rw [if_pos hs]; exact h
  · rw [if_neg hs]; exact foldl_addPieceNode_inv g0 _ st h

theorem foldl_processEdit_inv (g0 : Graph) (maxLen : Nat) :
    ∀ (es : List Edit) (st : Graph × NodeSide × Nat), ChInv g0 st →
      ChInv g0 (es.foldl (processEdit maxLen) st) := by
  intro es
  induction es with
  | nil => intro st h; exact h
  | cons e es ih =>
    intro st h
    exact ih _ (processEdit_inv g0 maxLen st h e)

theorem processMapping_inv (g0 : Graph) (maxLen : Nat)
    (st : Graph × Option NodeSide × Nat) (m : Mapping)
    (h : StInv g0 st) (hm : m.node ∈ nodeIds g0) :
    StInv g0 (processMapping maxLen st m) := by
  obtain ⟨hc, hd, hmono⟩ := h
  unfold processMapping
  have hg1 : ∀ g1 : Graph, Connected g1 → nodeIds g1 = nodeIds st.1 →
      StInv g0 ((m.edits.foldl (processEdit maxLen)
        (g1, mappingExit m, st.2.2)).1,
        some (m.edits.foldl (processEdit maxLen)
          (g1, mappingExit m, st.2.2)).2.1,
        (m.edits.foldl (processEdit maxLen)
          (g1, mappingExit m, st.2.2)).2.2) := by
    intro g1 hc1 hids1
    have hch : ChInv g0 (g1, mappingExit m, st.2.2) := by
      refine ⟨hc1, ?_, ?_⟩
      · show (mappingExit m).nid ∈ nodeIds g1
        rw [hids1]
        exact hmono _ hm
      · intro i hi
        rw [hids1]
        exact hmono i hi
    have := foldl_processEdit_inv g0 maxLen m.edits _ hch
    obtain ⟨hc', hd', hmono'⟩ := this
    exact ⟨hc', fun s hs => by rw [(Option.some.injEq _ _).mp hs.symm]; exact hd', hmono'⟩
  rcases hopt : st.2.1 with _ | s
  · exact hg1 st.1 hc rfl
  · exact hg1 ⟨st.1.nodes, st.1.edges ++ [connectSides s (mappingEntry m)]⟩
      (connected_add_edge st.1 hc _) (by simp [nodeIds])

theorem foldl_processMapping_inv (g0 : Graph) (maxLen : Nat) :
    ∀ (ms : List Mapping) (st : Graph × Option NodeSide × Nat),
      StInv g0 st → (∀ m ∈ ms, m.node ∈ nodeIds g0) →
      StInv g0 (ms.foldl (processMapping maxLen) st) := by
  intro ms
  induction ms with
  | nil => intro st h _; exact h
  | cons m ms ih =>
    intro st h hms
    exact ih _ (processMapping_inv g0 maxLen st m h
        (hms m (List.mem_cons_self m ms)))
      (fun m' hm' => hms m' (List.mem_cons_of_mem m hm'))

/-- C5: `add_nodes_and_edges` applied to a connected graph with any path
anchored on existing nodes — including a path whose edits force pieces
through a maximum node length cap — leaves the graph a single connected
component. -/
theorem add_nodes_and_edges_connected (g : Graph) (p : Path) (maxLen : Nat)
    (hc : Connected g) (hp : ∀ m ∈ p.mappings, m.node ∈ nodeIds g) :
    Connected (add_nodes_and_edges g p maxLen) := by
  have := foldl_processMapping_inv g maxLen p.mappings (g, none, freshId g)
    ⟨hc, ⟨fun s hs => Option.noConfusion hs, fun i hi => hi⟩⟩ hp
  exact this.1

/-- The graph of the add_nodes_and_edges unit test. -/
def editTestGraph : Graph :=
  ⟨[⟨1, ['G','A','T','T']⟩, ⟨2, ['A']⟩, ⟨3, ['C']⟩, ⟨4, ['A']⟩],
   [⟨1, 2, false, false, 0⟩, ⟨1, 3, false, false, 0⟩,
    ⟨2, 4, false, false, 0⟩, ⟨3, 4, false, false, 0⟩]⟩

/-- The big-insert path of the add_nodes_and_edges unit test: a full match
of node 1, a 10-base pure insertion, then a match of node 4. -/
def bigInsertPath : Path :=
  ⟨[⟨1, 0, false, [⟨4, 4, []⟩, ⟨0, 10, List.replicate 10 'A'⟩]⟩,
    ⟨4, 0, false, [⟨1, 1, []⟩]⟩]⟩

theorem editTestGraph_connected : Connected editTestGraph := by
  have h12 : adj editTestGraph 1 2 :=
    ⟨⟨1, 2, false, false, 0⟩, by decide, Or.inl ⟨rfl, rfl⟩⟩
  have h13 : adj editTestGraph 1 3 :=
    ⟨⟨1, 3, false, false, 0⟩, by decide, Or.inl ⟨rfl, rfl⟩⟩
  have h24 : adj editTestGraph 2 4 :=
    ⟨⟨2, 4, false, false, 0⟩, by decide, Or.inl ⟨rfl, rfl⟩⟩
  have hall : ∀ x ∈ nodeIds editTestGraph, Reaches editTestGraph 1 x := by
    intro x hx
    simp only [nodeIds, editTestGraph, List.map_cons, List.map_nil,
      List.mem_cons, List.not_mem_nil, or_false] at hx
    rcases hx with rfl | rfl | rfl | rfl
    · exact Relation.ReflTransGen.refl
    · exact Relation.ReflTransGen.single h12
    · exact Relation.ReflTransGen.single h13
    · exact (Relation.ReflTransGen.single h12).trans
        (Relation.ReflTransGen.single h24)
  intro a ha b hb
  exact (Reaches_symm editTestGraph (hall a ha)).trans (hall b hb)

/-- Witness for C5 at the unit test's big-insert path with node cap 1. -/
theorem add_nodes_and_edges_connected_witness :
    Connected (add_nodes_and_edges editTestGraph bigInsertPath 1) :=
  add_nodes_and_edges_connected editTestGraph bigInsertPath 1
    editTestGraph_connected (by decide)

/-! ## Path Editor: breakpoints, node splitting, path rewriting (spec 4.6)

Modelled from the spec: `edit(paths, simplify=false, break_ends_only=false)`
computes the breakpoints across the whole batch, materializes each affected
node's sub-pieces once (two-phase, per-node-consistent splitting), and
rewrites every input path's mappings and positions to reference the pieces;
perfect-match spans are split at the cuts inside them, while edits carrying
a literal sequence keep it inline.  The observable verified here is the
base sequence a path spells out. -/

/-- The half-open slice [a, b) of a sequence. -/
def slice (s : Seq) (a b : Nat) : Seq := (s.drop a).take (b - a)

/-- The sequence length of a node id (0 for a dangling reference). -/
def lengthOf (g : Graph) (i : Nat) : Nat :=
  match findNode g i with
  | some n => n.seq.length
  | none => 0

/-- The sequence of a node as seen by a mapping's traversal orientation. -/
def orientedSeq (g : Graph) (m : Mapping) : Seq :=
  match findNode g m.node with
  | some n => if m.rev then reverse_complement n.seq else n.seq
  | none => []

/-- The bases a run of edits spells out, walking the oriented node sequence
from the given cursor: a literal edit produces its sequence, a match
reproduces the reference bases, a deletion produces nothing. -/
def spellEdits (s : Seq) : Nat → List Edit → Seq
  | _, [] => []
  | pos, e :: es =>
    (if e.seq = [] then slice s pos (pos + e.toLen) else e.seq) ++
      spellEdits s (pos + e.fromLen) es

/-- The bases one mapping spells out. -/
def spellMapping (g : Graph) (m : Mapping) : Seq :=
  spellEdits (orientedSeq g m) m.offset m.edits

/-- The base sequence a whole path spells out. -/
def spellPath (g : Graph) (p : Path) : Seq :=
  (p.mappings.map (spellMapping g)).flatten

/-- The cursor positions at every edit boundary of a mapping. -/
def editEnds : Nat → List Edit → List Nat
  | pos, [] => [pos]
  | pos, e :: es => pos :: editEnds (pos + e.fromLen) es

/-- Modelled from the spec: `find_breakpoints` collects, for each node,
every edit boundary of every mapping of every path anchored on it,
translated to canonical forward-strand offsets. -/
def find_breakpoints (g : Graph) (paths : List Path) (i : Nat) : List Nat :=
  paths.flatMap (fun p => p.mappings.flatMap (fun m =>
    if m.node = i then
      (editEnds m.offset m.edits).map (fun c =>
        if m.rev then lengthOf g i - c else c)
    else []))

/-- The interior cut offsets of a node under a breakpoint assignment. -/
def csOf (bp : Nat → List Nat) (i : Nat) (L : Nat) : List Nat :=
  (bp i).filter (fun c => decide (0 < c) && decide (c < L))

/-- The largest cut at or before a forward position (0 when none): the
forward start offset of the piece holding that position. -/
def pieceStartF (cuts : List Nat) (x : Nat) : Nat :=
  (cuts.filter (fun c => decide (c ≤ x))).foldr max 0

/-- The smallest cut strictly after a forward position (the node length
when none): the forward end offset of the piece holding that position. -/
def pieceEndF (cuts : List Nat) (L x : Nat) : Nat :=
  (cuts.filter (fun c => decide (x < c))).foldr min L

/-- The forward sequence of the piece starting at forward offset `u`. -/
def pieceSeqF (s : Seq) (cuts : List Nat) (u : Nat) : Seq :=
  slice s u (pieceEndF cuts s.length u)

/-- The materialized pieces of the split graph: one node per (original id,
piece forward start offset), each holding its slice of the original. -/
def splitPieces (g : Graph) (bp : Nat → List Nat) : List ((Nat × Nat) × Seq) :=
  g.nodes.flatMap (fun n =>
    ((0 :: csOf bp n.id n.seq.length).dedup).map (fun u =>
      ((n.id, u), pieceSeqF n.seq (csOf bp n.id n.seq.length) u)))

/-- The sequence stored for a piece of the split graph. -/
def splitLookup (g : Graph) (bp : Nat → List Nat) (key : Nat × Nat) : Seq :=
  match findNode g key.1 with
  | some n => pieceSeqF n.seq (csOf bp key.1 n.seq.length) key.2
  | none => []

/-- A mapping of a rewritten path, anchored on a piece of the split graph. -/
structure PMapping where
  piece : Nat × Nat
  offset : Nat
  rev : Bool
  edits : List Edit
deriving DecidableEq, Repr

/-- The bases one rewritten mapping spells out over the split graph. -/
def spellPMapping (g : Graph) (bp : Nat → List Nat) (pm : PMapping) : Seq :=
  spellEdits
    (if pm.rev then reverse_complement (splitLookup g bp pm.piece)
     else splitLookup g bp pm.piece)
    pm.offset pm.edits

/-- The rewritten mapping placing `es` on the piece containing the oriented
span [x, y) of node `i` (forward length `L`, forward cuts `cuts`). -/
def mkFrag (i L : Nat) (cuts : List Nat) (rev : Bool) (x y : Nat)
    (es : List Edit) : PMapping :=
  let fx := if rev then L - y else x
  ⟨(i, pieceStartF cuts fx),
   if rev then x - (L - pieceEndF cuts L fx) else x - pieceStartF cuts fx,
   rev, es⟩

/-- The smallest oriented cut strictly inside (x, b), else b. -/
def nextCut (ocuts : List Nat) (x b : Nat) : Nat :=
  (ocuts.filter (fun c => decide (x < c) && decide (c < b))).foldr min b

/-- Split the oriented span [a, b) at the oriented cuts inside it. -/
def fragmentsF (ocuts : List Nat) : Nat → Nat → Nat → List (Nat × Nat)
  | 0, a, b => [(a, b)]
  | fuel+1, a, b =>
    if nextCut ocuts a b < b then
      (a, nextCut ocuts a b) :: fragmentsF ocuts fuel (nextCut ocuts a b) b
    else [(a, b)]

/-- The forward cuts seen in a mapping's traversal orientation. -/
def ocutsFor (rev : Bool) (L : Nat) (cuts : List Nat) : List Nat :=
  if rev then cuts.map (fun c => L - c) else cuts

/-- Rewrite the edits of one mapping onto the pieces: a perfect-match edit
is split at the cuts inside its span, every other edit is kept whole on the
piece of its anchor position. -/
def rewriteEdits (i L : Nat) (cuts : List Nat) (rev : Bool) :
    Nat → List Edit → List PMapping
  | _, [] => []
  | pos, e :: es =>
    (if e.seq = [] ∧ e.toLen = e.fromLen then
      (fragmentsF (ocutsFor rev L cuts) e.fromLen pos (pos + e.fromLen)).map
        (fun fr => mkFrag i L cuts rev fr.1 fr.2 [⟨fr.2 - fr.1, fr.2 - fr.1, []⟩])
     else
      [mkFrag i L cuts rev pos pos [e]]) ++
    rewriteEdits i L cuts rev (pos + e.fromLen) es

/-- Rewrite one mapping of an input path onto the pieces. -/
def rewriteMapping (g : Graph) (bp : Nat → List Nat) (m : Mapping) :
    List PMapping :=
  match findNode g m.node with
  | some n =>
    rewriteEdits m.node n.seq.length (csOf bp m.node n.seq.length)
      m.rev m.offset m.edits
  | none => []

/-- Modelled from the spec: `edit(paths, simplify=false,
break_ends_only=false)` — compute the batch breakpoints, materialize each
node's pieces once, rewrite every path onto the pieces (spec 4.6). -/
def edit (g : Graph) (paths : List Path) :
    List ((Nat × Nat) × Seq) × List (List PMapping) :=
  (splitPieces g (find_breakpoints g paths),
   paths.map (fun p =>
     p.mappings.flatMap (rewriteMapping g (find_breakpoints g paths))))

/-- Well-formedness of a mapping (spec sections 3 and 7): the anchored node
exists, the edits fit in the node's sequence from the offset, and an edit
without a literal sequence is a perfect match or a deletion. -/
def WFMapping (g : Graph) (m : Mapping) : Prop :=
  (findNode g m.node).isSome = true ∧
  m.offset + (m.edits.map Edit.fromLen).sum ≤ lengthOf g m.node ∧
  ∀ e ∈ m.edits, e.seq = [] → e.toLen = e.fromLen ∨ e.toLen = 0

/-- Well-formedness of a path: every mapping is well-formed. -/
def WFPath (g : Graph) (p : Path) : Prop := ∀ m ∈ p.mappings, WFMapping g m

theorem foldr_max_le {l : List Nat} {b : Nat} (h : ∀ c ∈ l, c ≤ b) :
    l.foldr max 0 ≤ b := by
  induction l with
  | nil => exact Nat.zero_le b
  | cons a t ih =>
    simp only [List.foldr_cons]
    exact Nat.max_le.mpr ⟨h a (List.mem_cons_self a t),
      ih (fun c hc => h c (List.mem_cons_of_mem a hc))⟩

theorem le_foldr_max {l : List Nat} {c : Nat} (hc : c ∈ l) :
    c ≤ l.foldr max 0 := by
  induction l with
  | nil => cases hc
  | cons a t ih =>
    simp only [List.foldr_cons]
    rcases List.mem_cons.mp hc with rfl | hmem
    · exact Nat.le_max_left _ _
    · exact le_trans (ih hmem) (Nat.le_max_right _ _)

theorem le_foldr_min {l : List Nat} {base b : Nat} (h : ∀ c ∈ l, b ≤ c)
    (hb : b ≤ base) : b ≤ l.foldr min base := by
  induction l with
  | nil => exact hb
  | cons a t ih =>
    simp only [List.foldr_cons]
    exact Nat.le_min.mpr ⟨h a (List.mem_cons_self a t),
      ih (fun c hc => h c (List.mem_cons_of_mem a hc))⟩

theorem foldr_min_le_base {l : List Nat} {base : Nat} :
    l.foldr min base ≤ base := by
  induction l with
  | nil => exact le_refl base
  | cons a t ih =>
    simp only [List.foldr_cons]
    exact le_trans (Nat.min_le_right _ _) ih

theorem foldr_min_le {l : List Nat} {base c : Nat} (hc : c ∈ l) :
    l.foldr min base ≤ c := by
  induction l with
  | nil => cases hc
  | cons a t ih =>
    simp only [List.foldr_cons]
    rcases List.mem_cons.mp hc with rfl | hmem
    · exact Nat.min_le_left _ _
    · exact le_trans (Nat.min_le_right _ _) (ih hmem)

theorem foldr_min_mem_or_base {l : List Nat} {base : Nat} :
    l.foldr min base = base ∨ l.foldr min base ∈ l := by
  induction l with
  | nil => exact Or.inl rfl
  | cons a t ih =>
    simp only [List.foldr_cons]
    rcases Nat.le_total a (t.foldr min base) with hle | hle
    · right
      rw [Nat.min_eq_left hle]
      exact List.mem_cons_self a t
    · rw [Nat.min_eq_right hle]
      rcases ih with h | h
      · exact Or.inl h
      · exact Or.inr (List.mem_cons_of_mem a h)

theorem slice_append (s : Seq) {a c b : Nat} (hac : a ≤ c) (hcb : c ≤ b) :
    slice s a c ++ slice s c b = slice s a b := by
  unfold slice
  have hba : b - a = (c - a) + (b - c) := by omega
  rw [hba, List.take_add, List.drop_drop]
  have : a + (c - a) = c := by omega
  rw [this]

theorem slice_slice (s : Seq) {oL oR x y : Nat} (h1 : oL ≤ x) (h2 : y ≤ oR) :
    slice (slice s oL oR) (x - oL) (x - oL + (y - x)) = slice s x y := by
  unfold slice
  rw [List.drop_take, List.drop_drop]
  have hx : oL + (x - oL) = x := by omega
  rw [hx, List.take_take]
  congr 1
  omega

theorem slice_nil (s : Seq) (a : Nat) : slice s a a = [] := by
  unfold slice
  simp

theorem reverse_complement_slice (s : Seq) {a b : Nat} (hab : a ≤ b)
    (hbL : b ≤ s.length) :
    slice (reverse_complement s) a b
      = reverse_complement (slice s (s.length - b) (s.length - a)) := by
  unfold slice reverse_complement
  have hlen : (s.map complement).length = s.length := List.length_map _ _
  rw [List.drop_reverse, List.take_reverse, List.drop_take, hlen]
  rw [List.length_take, hlen]
  have harith : min (s.length - a) s.length - (b - a) = s.length - b := by
    omega
  rw [harith]
  rw [← List.map_drop, ← List.map_take]

theorem csOf_interior (bp : Nat → List Nat) (i L : Nat) :
    ∀ c ∈ csOf bp i L, 0 < c ∧ c < L := by
  intro c hc
  have := List.of_mem_filter hc
  simp only [Bool.and_eq_true, decide_eq_true_eq] at this
  exact this

theorem pieceStartF_le (cuts : List Nat) (x : Nat) : pieceStartF cuts x ≤ x := by
  apply foldr_max_le
  intro c hc
  obtain ⟨hmem, hdec⟩ := List.mem_filter.mp hc
  exact of_decide_eq_true hdec

theorem le_pieceStartF {cuts : List Nat} {x c : Nat} (hc : c ∈ cuts)
    (hcx : c ≤ x) : c ≤ pieceStartF cuts x :=
  le_foldr_max (List.mem_filter.mpr ⟨hc, decide_eq_true hcx⟩)

theorem le_pieceEndF {cuts : List Nat} {L fx : Nat} (hfxL : fx ≤ L) :
    fx ≤ pieceEndF cuts L fx := by
  apply le_foldr_min _ hfxL
  intro c hc
  obtain ⟨hmem, hdec⟩ := List.mem_filter.mp hc
  exact Nat.le_of_lt (of_decide_eq_true hdec)

theorem pieceEndF_le_base (cuts : List Nat) (L fx : Nat) :
    pieceEndF cuts L fx ≤ L := foldr_min_le_base

theorem le_pieceEndF_of {cuts : List Nat} {L fx y : Nat}
    (h : ∀ c ∈ cuts, fx < c → y ≤ c) (hyL : y ≤ L) :
    y ≤ pieceEndF cuts L fx := by
  apply le_foldr_min _ hyL
  intro c hc
  obtain ⟨hmem, hdec⟩ := List.mem_filter.mp hc
  exact h c hmem (of_decide_eq_true hdec)

theorem pieceEndF_start_eq (cuts : List Nat) (L x : Nat) :
    pieceEndF cuts L (pieceStartF cuts x) = pieceEndF cuts L x := by
  unfold pieceEndF
  congr 1
  apply List.filter_congr
  intro c hc
  by_cases h : x < c
  · have : pieceStartF cuts x < c :=
      Nat.lt_of_le_of_lt (pieceStartF_le cuts x) h
    simp [h, this]
  · have hcx : c ≤ x := Nat.le_of_not_lt h
    have := le_pieceStartF hc hcx
    simp [h, Nat.not_lt.mpr this]

theorem spellEdits_single (s : Seq) (off : Nat) (e : Edit) :
    spellEdits s off [e]
      = (if e.seq = [] then slice s off (off + e.toLen) else e.seq) := by
  simp only [spellEdits]
  rw [List.append_nil]

/-- Spelling a perfect-match fragment over its piece of the split graph
reproduces the corresponding slice of the oriented node sequence. -/
theorem frag_spell (g : Graph) (bp : Nat → List Nat) (i : Nat) (n : Node)
    (hfind : findNode g i = some n) (rev : Bool) (x y : Nat)
    (hxy : x ≤ y) (hyL : y ≤ n.seq.length)
    (hnc : ∀ c ∈ ocutsFor rev n.seq.length (csOf bp i n.seq.length),
      ¬(x < c ∧ c < y)) :
    spellPMapping g bp
      (mkFrag i n.seq.length (csOf bp i n.seq.length) rev x y
        [⟨y - x, y - x, []⟩])
      = slice (if rev then reverse_complement n.seq else n.seq) x y := by
  cases rev with
  | false =>
    unfold mkFrag spellPMapping splitLookup
    simp only [hfind, Bool.false_eq_true, if_false]
    rw [spellEdits_single]
    simp only [if_pos rfl]
    set L := n.seq.length with hL
    set cs := csOf bp i L with hcs
    set u := pieceStartF cs x with hu
    have hux : u ≤ x := pieceStartF_le cs x
    have hyen : y ≤ pieceEndF cs L x := by
      apply le_pieceEndF_of _ hyL
      intro c hc hxc
      have := hnc c (by simpa [ocutsFor] using hc)
      omega
    have hps : pieceSeqF n.seq cs u = slice n.seq u (pieceEndF cs L x) := by
      unfold pieceSeqF
      rw [← hL, hu, pieceEndF_start_eq]
    rw [hps]
    exact slice_slice n.seq hux hyen
  | true =>
    unfold mkFrag spellPMapping splitLookup
    simp only [hfind, ite_true]
    rw [spellEdits_single]
    simp only [if_pos rfl]
    set L := n.seq.length with hL
    set cs := csOf bp i L with hcs
    set u := pieceStartF cs (L - y) with hu
    set en := pieceEndF cs L (L - y) with hen
    have hxL : x ≤ L := le_trans hxy hyL
    have hult : u ≤ L - y := pieceStartF_le cs (L - y)
    have henL : en ≤ L := pieceEndF_le_base cs L (L - y)
    have huen : u ≤ en := le_trans hult (le_pieceEndF (by omega))
    have henx : L - x ≤ en := by
      apply le_pieceEndF_of _ (by omega)
      intro c hc hfxc
      by_contra hlt
      push_neg at hlt
      have hint := csOf_interior bp i L c hc
      have hoc : L - c ∈ ocutsFor true L cs := by
        unfold ocutsFor
        simp only [ite_true]
        exact List.mem_map.mpr ⟨c, hc, rfl⟩
      have := hnc (L - c) hoc
      omega
    have hps : pieceSeqF n.seq cs u = slice n.seq u en := by
      unfold pieceSeqF
      rw [← hL, hu, hen, pieceEndF_start_eq]
    rw [hps]
    have key : slice (reverse_complement n.seq) (L - en) (L - u)
        = reverse_complement (slice n.seq u en) := by
      rw [reverse_complement_slice n.seq (by omega) (by omega)]
      have e1 : L - (L - u) = u := by omega
      have e2 : L - (L - en) = en := by omega
      rw [e1, e2]
    rw [← key]
    have h1 : L - en ≤ x := by omega
    have h2 : y ≤ L - u := by omega
    have := slice_slice (reverse_complement n.seq) h1 h2
    exact this

theorem nextCut_le_base (ocuts : List Nat) (a b : Nat) :
    nextCut ocuts a b ≤ b := foldr_min_le_base

theorem le_nextCut (ocuts : List Nat) {a b : Nat} (hab : a ≤ b) :
    a ≤ nextCut ocuts a b := by
  apply le_foldr_min _ hab
  intro c hc
  obtain ⟨hmem, hdec⟩ := List.mem_filter.mp hc
  simp only [Bool.and_eq_true, decide_eq_true_eq] at hdec
  omega

theorem nextCut_mem_of_lt {ocuts : List Nat} {a b : Nat}
    (h : nextCut ocuts a b < b) :
    nextCut ocuts a b ∈ ocuts ∧ a < nextCut ocuts a b := by
  unfold nextCut at h ⊢
  rcases foldr_min_mem_or_base with heq | hmem
  · rw [heq] at h
    exact absurd h (lt_irrefl b)
  · obtain ⟨hm, hdec⟩ := List.mem_filter.mp hmem
    simp only [Bool.and_eq_true, decide_eq_true_eq] at hdec
    exact ⟨hm, hdec.1⟩

theorem nextCut_min {ocuts : List Nat} {a b c : Nat} (hc : c ∈ ocuts)
    (h1 : a < c) (h2 : c < b) : nextCut ocuts a b ≤ c :=
  foldr_min_le (List.mem_filter.mpr ⟨hc, by
    simp only [Bool.and_eq_true, decide_eq_true_eq]
    exact ⟨h1, h2⟩⟩)

/-- Spelling the per-piece fragments of a perfect-match span reproduces the
corresponding slice of the oriented node sequence. -/
theorem fragmentsF_spell (g : Graph) (bp : Nat → List Nat) (i : Nat)
    (n : Node) (hfind : findNode g i = some n) (rev : Bool) :
    ∀ (fuel a b : Nat), a ≤ b → b ≤ n.seq.length → b - a ≤ fuel →
    ((fragmentsF (ocutsFor rev n.seq.length (csOf bp i n.seq.length))
        fuel a b).map
      (fun fr => spellPMapping g bp
        (mkFrag i n.seq.length (csOf bp i n.seq.length) rev fr.1 fr.2
          [⟨fr.2 - fr.1, fr.2 - fr.1, []⟩]))).flatten
      = slice (if rev then reverse_complement n.seq else n.seq) a b := by
  intro fuel
  induction fuel with
  | zero =>
    intro a b hab hbL hfuel
    have hba : a = b := by omega
    subst hba
    simp only [fragmentsF, List.map_cons, List.map_nil, List.flatten_cons,
      List.flatten_nil]
    rw [List.append_nil]
    apply frag_spell g bp i n hfind rev a a (le_refl a) hbL
    intro c _
    omega
  | succ fuel ih =>
    intro a b hab hbL hfuel
    unfold fragmentsF
    set oc := ocutsFor rev n.seq.length (csOf bp i n.seq.length) with hoc
    by_cases hc : nextCut oc a b < b
    · rw [if_pos hc]
      obtain ⟨hmem, halt⟩ := nextCut_mem_of_lt hc
      simp only [List.map_cons, List.flatten_cons]
      have hhead := frag_spell g bp i n hfind rev a (nextCut oc a b)
        (le_nextCut oc hab) (le_trans (le_of_lt hc) hbL) ?_
      · have htail := ih (nextCut oc a b) b (le_of_lt hc) hbL (by omega)
        rw [hhead, htail]
        exact slice_append _ (le_nextCut oc hab) (le_of_lt hc)
      · intro c' hc' hin
        have hle := nextCut_min hc' hin.1 (lt_trans hin.2 hc)
        rw [← hoc] at hle
        omega
    · rw [if_neg hc]
      simp only [List.map_cons, List.map_nil, List.flatten_cons,
        List.flatten_nil]
      rw [List.append_nil]
      apply frag_spell g bp i n hfind rev a b hab hbL
      intro c' hc' hin
      have hle := nextCut_min hc' hin.1 hin.2
      rw [← hoc] at hle
      omega

/-- Spelling the rewritten form of a run of edits reproduces what the run
spells on the original node. -/
theorem rewriteEdits_spell (g : Graph) (bp : Nat → List Nat) (i : Nat)
    (n : Node) (hfind : findNode g i = some n) (rev : Bool) :
    ∀ (es : List Edit) (pos : Nat),
      pos + (es.map Edit.fromLen).sum ≤ n.seq.length →
      (∀ e ∈ es, e.seq = [] → e.toLen = e.fromLen ∨ e.toLen = 0) →
      ((rewriteEdits i n.seq.length (csOf bp i n.seq.length) rev pos es).map
        (spellPMapping g bp)).flatten
        = spellEdits (if rev then reverse_complement n.seq else n.seq)
            pos es := by
  intro es
  induction es with
  | nil =>
    intro pos _ _
    simp [rewriteEdits, spellEdits]
  | cons e es ih =>
    intro pos hbudget hshape
    have hbudget' : pos + e.fromLen + (es.map Edit.fromLen).sum
        ≤ n.seq.length := by
      rw [List.map_cons, List.sum_cons] at hbudget
      omega
    have hshape' : ∀ e' ∈ es, e'.seq = [] →
        e'.toLen = e'.fromLen ∨ e'.toLen = 0 :=
      fun e' he' => hshape e' (List.mem_cons_of_mem e he')
    simp only [rewriteEdits, List.map_append, List.flatten_append]
    rw [ih (pos + e.fromLen) hbudget' hshape']
    simp only [spellEdits]
    congr 1
    by_cases hm : e.seq = [] ∧ e.toLen = e.fromLen
    · rw [if_pos hm, List.map_map]
      have := fragmentsF_spell g bp i n hfind rev e.fromLen pos
        (pos + e.fromLen) (by omega) (by omega) (by omega)
      rw [if_pos hm.1, hm.2]
      rw [← this]
      rfl
    · rw [if_neg hm]
      simp only [List.map_cons, List.map_nil, List.flatten_cons,
        List.flatten_nil]
      rw [List.append_nil]
      unfold mkFrag spellPMapping
      rw [spellEdits_single]
      by_cases hs : e.seq = []
      · have ht : e.toLen = 0 := by
          rcases hshape e (List.mem_cons_self e es) hs with h | h
          · exact absurd ⟨hs, h⟩ hm
          · exact h
        rw [if_pos hs, if_pos hs, ht]
        rw [Nat.add_zero, Nat.add_zero, slice_nil, slice_nil]
      · rw [if_neg hs, if_neg hs]

/-- Spelling the rewritten form of a mapping reproduces what the mapping
spells. -/
theorem rewriteMapping_spell (g : Graph) (bp : Nat → List Nat) (m : Mapping)
    (hwf : WFMapping g m) :
    ((rewriteMapping g bp m).map (spellPMapping g bp)).flatten
      = spellMapping g m := by
  obtain ⟨hsome, hbudget, hshape⟩ := hwf
  obtain ⟨n, hfind⟩ := Option.isSome_iff_exists.mp hsome
  unfold rewriteMapping spellMapping orientedSeq
  rw [hfind]
  have hlen : lengthOf g m.node = n.seq.length := by
    unfold lengthOf
    rw [hfind]
  exact rewriteEdits_spell g bp m.node n hfind m.rev m.edits m.offset
    (hlen ▸ hbudget) hshape

theorem flatMap_map_flatten {α β γ : Type} (ms : List α) (f : α → List β)
    (h : β → List γ) :
    ((ms.flatMap f).map h).flatten
      = (ms.map (fun m => ((f m).map h).flatten)).flatten := by
  induction ms with
  | nil => rfl
  | cons m ms ih =>
    rw [List.flatMap_cons, List.map_append, List.flatten_append, ih,
      List.map_cons, List.flatten_cons]

/-- C2: the rewritten batch of `edit(paths, simplify=false,
break_ends_only=false)` is path-content faithful: each rewritten path, its
mappings' edits concatenated over the split graph, spells out exactly the
same base sequence as the corresponding well-formed input path — including
paths that double back on themselves through reverse-orientation mappings. -/
theorem edit_path_fidelity (g : Graph) (paths : List Path)
    (hwf : ∀ p ∈ paths, WFPath g p) :
    List.Forall₂ (fun rw p =>
      (rw.map (spellPMapping g (find_breakpoints g paths))).flatten
        = spellPath g p)
      (edit g paths).2 paths := by
  unfold edit
  have haux : ∀ (bp : Nat → List Nat) (l : List Path),
      (∀ p ∈ l, WFPath g p) →
      List.Forall₂ (fun rw p =>
        (rw.map (spellPMapping g bp)).flatten = spellPath g p)
        (l.map (fun p => p.mappings.flatMap (rewriteMapping g bp))) l := by
    intro bp l hl
    induction l with
    | nil => exact List.Forall₂.nil
    | cons p ps ih =>
      rw [List.map_cons]
      refine List.Forall₂.cons ?_ (ih (fun q hq => hl q (List.mem_cons_of_mem p hq)))
      rw [flatMap_map_flatten]
      unfold spellPath
      congr 1
      apply List.map_congr_left
      intro m hm
      exact rewriteMapping_spell g bp m (hl p (List.mem_cons_self p ps) m hm)
  exact haux (find_breakpoints g paths) paths hwf

/-- The graph of the "edit() should not get confused" unit test. -/
def confusingTestGraph : Graph :=
  ⟨[⟨1, ['G','A','T','T']⟩, ⟨2, ['T']⟩, ⟨3, ['C']⟩, ⟨4, ['A']⟩],
   [⟨1, 2, false, true, 0⟩, ⟨1, 3, false, false, 0⟩,
    ⟨2, 4, true, false, 0⟩, ⟨3, 4, false, false, 0⟩]⟩

/-- The unit test's path that doubles back on itself through edges not yet
in the graph: a match and an insertion on node 1 forward, node 2 in both
orientations, then node 1 in reverse. -/
def confusingPath : Path :=
  ⟨[⟨1, 1, false, [⟨3, 3, []⟩, ⟨0, 3, ['C','C','C']⟩]⟩,
    ⟨2, 0, true, [⟨1, 1, []⟩]⟩,
    ⟨2, 0, false, [⟨1, 1, []⟩]⟩,
    ⟨1, 0, true, [⟨1, 1, []⟩]⟩]⟩

/-- Witness for C2 at the unit test's doubling-back path. -/
theorem edit_path_fidelity_witness :
    List.Forall₂ (fun rw p =>
      (rw.map (spellPMapping confusingTestGraph
        (find_breakpoints confusingTestGraph [confusingPath]))).flatten
        = spellPath confusingTestGraph p)
      (edit confusingTestGraph [confusingPath]).2 [confusingPath] :=
  edit_path_fidelity confusingTestGraph [confusingPath]
    (by unfold WFPath WFMapping; decide)

end VGSpec
